import Mathlib

/-!
Verification development for the HomeLabInABox deployment planner
(`HomeLabInABox.py`) and its execution-event classifier (`AnsibleWrapper.py`).

The Python sources are shallowly embedded below: pure functions become Lean
functions, Python exceptions become `Except` errors, Python dictionaries
loaded from the module catalog become structures with the fields the code
actually reads, and the `networkx` graph operations used by the planner are
modelled extensionally on insertion-ordered node and edge lists.
-/

namespace HIAB

/-- Directed graph with insertion-ordered node and edge lists, modelling the
`networkx.DiGraph` used by `HomeLabInABox.py` (node and edge sets preserving
insertion order). -/
structure DiGraph where
  nodes : List String
  edges : List (String × String)
deriving Repr, DecidableEq

/-- The planner's initial `nx.DiGraph()`. -/
def DiGraph.empty : DiGraph := ⟨[], []⟩

/-- Model of `networkx.DiGraph.add_node`: adds the node if absent. -/
def addNode (g : DiGraph) (n : String) : DiGraph :=
  if n ∈ g.nodes then g else ⟨g.nodes ++ [n], g.edges⟩

/-- Model of `networkx.DiGraph.add_edge`: adds missing endpoints as nodes,
then the edge if absent. -/
def addEdge (g : DiGraph) (u v : String) : DiGraph :=
  let g1 := addNode (addNode g u) v
  if (u, v) ∈ g1.edges then g1 else ⟨g1.nodes, g1.edges ++ [(u, v)]⟩

/-- Every consecutive pair of the list is an edge of `edges`. -/
def chainB (edges : List (String × String)) : List String → Bool
  | [] => true
  | [_] => true
  | a :: b :: rest => decide ((a, b) ∈ edges) && chainB edges (b :: rest)

/-- A nonempty duplicate-free list of nodes that follows edges consecutively
and closes back on its head: one simple cycle written as an ordered chain of
module names. -/
def isSimpleCycle (g : DiGraph) : List String → Bool
  | [] => false
  | a :: rest => decide ((a :: rest).Nodup) && chainB g.edges ((a :: rest) ++ [a])

/-- All ways to insert `x` into a list, used to enumerate permutations. -/
def insertEverywhere (x : String) : List String → List (List String)
  | [] => [[x]]
  | y :: ys => (x :: y :: ys) :: (insertEverywhere x ys).map (y :: ·)

/-- All permutations of a list, by structural recursion. -/
def perms : List String → List (List String)
  | [] => [[]]
  | x :: xs => (perms xs).flatMap (insertEverywhere x)

/-- Extensional model of `networkx.simple_cycles`: all simple cycles of the
graph, enumerated by brute force over duplicate-free sequences of nodes (each
cycle is listed once per rotation of its chain). -/
def simpleCycles (g : DiGraph) : List (List String) :=
  (g.nodes.sublists.flatMap perms).filter (isSimpleCycle g)

/-- The exceptions the planner can raise.  `moduleConfigurationError` models
`ModuleConfigurationError` as raised by `check_for_cycles` and carries the
list of cycle chains that the exception message is formatted from;
`typeError`, `indexError` and `keyError` model the corresponding Python
built-in exceptions; `unfeasible` models `networkx.NetworkXUnfeasible` from
`topological_sort` on a cyclic graph; `fuelOut` is an artifact of the
embedding marking an exhausted iteration bound (the Python loops always
terminate, and every theorem below quantifies over runs returning a result).
-/
inductive HiabError
  | moduleConfigurationError (cycles : List (List String))
  | typeError
  | indexError
  | keyError (key : String)
  | unfeasible
  | fuelOut
deriving Repr, DecidableEq

/-- Model of `HomeLabInABox.check_for_cycles`: return normally when
`nx.is_directed_acyclic_graph` holds (extensionally: the graph has no simple
cycle), otherwise raise `ModuleConfigurationError` carrying the list of all
simple cycles of the current graph, each an ordered chain of module names. -/
def check_for_cycles (g : DiGraph) : Except HiabError Unit :=
  if simpleCycles g = [] then .ok ()
  else .error (.moduleConfigurationError (simpleCycles g))

/-- Node `v` has no incoming edge from the nodes in `remaining`. -/
def noIncoming (edges : List (String × String)) (remaining : List String)
    (v : String) : Bool :=
  remaining.all (fun u => decide ((u, v) ∉ edges))

/-- Kahn-style worker for `topological_sort`: repeatedly emit the first
remaining node with no incoming edge from the remaining nodes. -/
def topoAux (edges : List (String × String)) : Nat → List String → Option (List String)
  | 0, rem => if rem = [] then some [] else none
  | fuel + 1, rem =>
    if rem = [] then some []
    else
      match rem.find? (noIncoming edges rem) with
      | none => none
      | some v => (topoAux edges fuel (rem.erase v)).map (v :: ·)

/-- Model of `networkx.topological_sort` as called by
`get_deployment_order`: a deterministic Kahn ordering of all nodes; `none`
when every remaining node has an incoming edge (a cycle), where networkx
raises `NetworkXUnfeasible`. -/
def topological_sort (g : DiGraph) : Option (List String) :=
  topoAux g.edges g.nodes.length g.nodes

/-- Model of `HomeLabInABox.get_deployment_order`. -/
def get_deployment_order (g : DiGraph) : Except HiabError (List String) :=
  match topological_sort g with
  | some l => .ok l
  | none => .error .unfeasible

/-- Runtime value of a configuration variable, classified the way the
validator's `isinstance` checks classify it.  Scalar payloads are kept where
the code reads them; the contents of list and mapping values are never
inspected by the validator and are elided. -/
inductive PVal
  | str (s : String)
  | int (n : Int)
  | bool (b : Bool)
  | listVal
  | dictVal
deriving Repr, DecidableEq

/-- The Python runtime types appearing in the validator's `type_mappings`. -/
inductive PyType
  | str
  | int
  | bool
  | listTy
  | dictTy
deriving Repr, DecidableEq

/-- Model of the `type_mappings` dictionary of
`validate_configuration_file`; `none` models the `KeyError` a lookup of an
undeclared type tag would raise. -/
def type_mappings : String → Option PyType
  | "str" => some .str
  | "list" => some .listTy
  | "int" => some .int
  | "bool" => some .bool
  | "dict" => some .dictTy
  | _ => none

/-- Python `isinstance` on the values and types the validator uses.  Note
that Python `bool` is a subclass of `int`, so a boolean value passes an
`int` check. -/
def isinstance : PVal → PyType → Bool
  | .str _, .str => true
  | .int _, .int => true
  | .bool _, .int => true
  | .bool _, .bool => true
  | .listVal, .listTy => true
  | .dictVal, .dictTy => true
  | _, _ => false

/-- One entry of a module spec's `required_variables` list. -/
structure VarSpec where
  name : String
  type : String
  default : PVal
  description : String
deriving Repr, DecidableEq

/-- A module spec as loaded by `get_all_modules` from `Modules/*/spec.yaml`,
with the fields the planner reads.  A dependency entry of YAML null is
modelled as the empty string (both are falsy in the `not
spec["dependencies"][0]` sentinel test of `process_modules`). -/
structure ModuleSpec where
  name : String
  description : String
  dependencies : List String
  required_variables : List VarSpec
deriving Repr, DecidableEq

/-- Model of `HomeLabInABox.get_module_spec`: the first spec whose name
matches; `none` models the Python `None` returned when no spec matches. -/
def get_module_spec (all_modules : List ModuleSpec) (target_module : String) :
    Option ModuleSpec :=
  all_modules.find? (fun m => m.name == target_module)

/-- The sentinel test of `process_modules` on a nonempty dependency list:
`not spec["dependencies"][0] or spec["dependencies"][0] == "None"`. -/
def sentinelHead (d : String) : Bool :=
  d == "" || d == "None"

/-- Model of `HomeLabInABox.add_module_dependencies_to_graph`: add the module
as a node, then add each `dependency -> module` edge, re-running the cycle
check after every single edge insertion. -/
def add_module_dependencies_to_graph (g : DiGraph)
    (module_dependencies : List String) (module_name : String) :
    Except HiabError DiGraph :=
  module_dependencies.foldlM (fun g dependency => do
      let g := addEdge g dependency module_name
      check_for_cycles g
      pure g)
    (addNode g module_name)

/-- Model of `HomeLabInABox.add_module_dependencies_to_desired_modules`:
append every dependency not already present. -/
def add_module_dependencies_to_desired_modules (names : List String)
    (module_dependencies : List String) : List String :=
  module_dependencies.foldl
    (fun ns dependency => if dependency ∈ ns then ns else ns ++ [dependency])
    names

/-- The planner state mutated by `process_modules`: `desired_module_names`
(a Python list iterated by index while it grows), the accumulated
`desired_modules` specs, and the dependency graph. -/
structure PMState where
  names : List String
  modules : List ModuleSpec
  graph : DiGraph
deriving Repr, DecidableEq

/-- Worker for `process_modules`: one iteration of the
`for module_name in self.desired_module_names` loop at index `i`.  Python's
list iterator re-checks the live length each step, so dependencies appended
during the loop are themselves processed; `fuel` bounds the iteration count
(see `HiabError.fuelOut`).  An unknown module name makes
`spec["dependencies"]` subscript `None` (a `TypeError`); an empty dependency
list makes `spec["dependencies"][0]` raise `IndexError`. -/
def processAux (all_modules : List ModuleSpec) :
    Nat → Nat → PMState → Except HiabError PMState
  | 0, i, st => if i < st.names.length then .error .fuelOut else .ok st
  | fuel + 1, i, st =>
    match st.names[i]? with
    | none => .ok st
    | some module_name =>
      match get_module_spec all_modules module_name with
      | none => .error .typeError
      | some spec =>
        let st1 : PMState := ⟨st.names, st.modules ++ [spec], st.graph⟩
        match spec.dependencies with
        | [] => .error .indexError
        | d :: ds =>
          if sentinelHead d then
            processAux all_modules fuel (i + 1) st1
          else
            match add_module_dependencies_to_graph st1.graph (d :: ds) spec.name with
            | .error e => .error e
            | .ok g =>
              processAux all_modules fuel (i + 1)
                ⟨add_module_dependencies_to_desired_modules st1.names (d :: ds),
                 st1.modules, g⟩

/-- Model of `HomeLabInABox.process_modules`: reset `desired_modules` and the
graph, then run the live-list loop from index 0. -/
def process_modules (all_modules : List ModuleSpec)
    (desired_module_names : List String) (fuel : Nat) :
    Except HiabError PMState :=
  processAux all_modules fuel 0 ⟨desired_module_names, [], DiGraph.empty⟩

/-- Model of `HomeLabInABox.load_desired_modules` as far as the planning
claims reach: expand the selection with `process_modules`, then compute the
deployment order (`order_desired_modules` calls `get_deployment_order`).
An error during expansion aborts before any order is computed. -/
def load_desired_modules (all_modules : List ModuleSpec)
    (desired_module_names : List String) (fuel : Nat) :
    Except HiabError (PMState × List String) := do
  let st ← process_modules all_modules desired_module_names fuel
  let ord ← get_deployment_order st.graph
  pure (st, ord)

/-- One entry of a configuration block's `Required Variables` list:
`{Name, Description, Value}`. -/
structure ConfigVar where
  Name : String
  Description : String
  Value : PVal
deriving Repr, DecidableEq

/-- One configuration block of `configuration.yaml`:
`{Name, Required Variables}`. -/
structure ConfigModule where
  Name : String
  RequiredVariables : List ConfigVar
deriving Repr, DecidableEq

/-- The inner `for j, variable in enumerate(module["Required Variables"])`
loop of `validate_configuration_file`, with `j` the running position.  An
entry whose name is not declared sets `valid = False` and then immediately
raises `KeyError` while building its annotation, because the message reads
`module_spec['variables']` and module specs have no `variables` key (they
declare `required_variables`).  A surviving entry is type-checked against
`module_spec["required_variables"][j]` - the spec variable at the same
position `j`, not the one with the matching name - raising `IndexError`
when `j` is past the end of the spec's list.  A type mismatch sets
`valid = False` and then raises `KeyError` while building its annotation,
because the message reads `module_spec['type']` and module specs have no
`type` key.  Consequently no annotation is ever stored, the document is
never re-persisted, and the loop either raises or leaves `valid` as `True`.
-/
def checkEntriesAux (spec : ModuleSpec) : Nat → List ConfigVar → Except HiabError Unit
  | _, [] => .ok ()
  | j, v :: rest =>
    if spec.required_variables.any (fun x => x.name == v.Name) then
      match spec.required_variables[j]? with
      | none => .error .indexError
      | some vs =>
        match type_mappings vs.type with
        | none => .error (.keyError vs.type)
        | some ty =>
          if isinstance v.Value ty then checkEntriesAux spec (j + 1) rest
          else .error (.keyError "type")
    else .error (.keyError "variables")

/-- The outer `for i, module in enumerate(self.configuration["Modules"])`
loop of `validate_configuration_file`.  A block naming an unknown module
makes `get_module_spec` return `None` and the subsequent
`module_spec["required_variables"]` subscript raise `TypeError`. -/
def validateConfigLoop (all_modules : List ModuleSpec) :
    List ConfigModule → Except HiabError Unit
  | [] => .ok ()
  | m :: rest =>
    match get_module_spec all_modules m.Name with
    | none => .error .typeError
    | some spec =>
      match checkEntriesAux spec 0 m.RequiredVariables with
      | .error e => .error e
      | .ok _ => validateConfigLoop all_modules rest

/-- Model of `HomeLabInABox.validate_configuration_file` on the loaded
configuration document.  The result triple is `(valid, document, saved)`:
the returned validity flag, the configuration document as left by the call,
and whether the document was re-persisted (`save_yaml` runs only under
`if not valid`, which is unreachable because every invalidating iteration
raises first, so a normal return is always `(True, unchanged, False)`). -/
def validate_configuration_file (all_modules : List ModuleSpec)
    (config : List ConfigModule) :
    Except HiabError (Bool × List ConfigModule × Bool) := do
  validateConfigLoop all_modules config
  pure (true, config, false)

/-- A whitespace character as Python `str.strip` treats the common cases. -/
def isSpaceChar (c : Char) : Bool :=
  c == ' ' || c == '\t' || c == '\n' || c == '\r'

/-- Drop leading whitespace characters. -/
def dropLeadingSpace : List Char → List Char
  | [] => []
  | c :: cs => if isSpaceChar c then dropLeadingSpace cs else c :: cs

/-- Model of Python `str.strip()`: remove leading and trailing whitespace. -/
def pyStrip (s : String) : String :=
  ⟨(dropLeadingSpace (dropLeadingSpace s.data.reverse).reverse)⟩

/-- Model of `HomeLabInABox.get_desired_modules` on the selection file's
`wanted_modules` list: falsy entries (YAML null modelled as the empty
string) are skipped, surviving entries are stripped of surrounding
whitespace. -/
def get_desired_module_names (wanted_modules : List String) : List String :=
  (wanted_modules.filter (fun s => s ≠ "")).map pyStrip

/-- The `for module in self.desired_module_names` loop of
`validate_modules`.  A falsy (empty) name is skipped.  On an invalid module
choice the code sets `valid = False` and then executes
`module_choices["wanted_modules"][module] = module + " <--- invalid"`, which
indexes the `wanted_modules` Python list with a string and raises
`TypeError`, so the annotated file is never written and `False` is never
returned. -/
def validateModulesGo (all_modules : List ModuleSpec) :
    List String → Except HiabError Bool
  | [] => .ok true
  | m :: rest =>
    if m = "" then validateModulesGo all_modules rest
    else if all_modules.any (fun x => x.name == m) then
      validateModulesGo all_modules rest
    else .error .typeError

/-- Model of `HomeLabInABox.validate_modules`. -/
def validate_modules (all_modules : List ModuleSpec)
    (wanted_modules : List String) : Except HiabError Bool :=
  validateModulesGo all_modules (get_desired_module_names wanted_modules)

end HIAB

namespace AnsibleWrapper

/-- The `event_data` sub-dictionary of a structured runner event, with the
optional context fields `get_task_data` reads. -/
structure EventData where
  task : Option String
  task_action : Option String
  host : Option String
  remote_addr : Option String
deriving Repr, DecidableEq

/-- One JSON line of the runner's stdout, with the fields the wrapper reads:
the optional `stdout` text of the event and the optional `event_data`
context dictionary. -/
structure EventJson where
  stdout : Option String
  event_data : Option EventData
deriving Repr, DecidableEq

/-- One raw line of the redirected stdout as `clean_stdout` classifies it:
a line matching the `[WARNING]` regex (carrying the captured message), a
line that parses as JSON, or anything else. -/
inductive RawLine
  | warning (message : String)
  | jsonLine (event : EventJson)
  | garbage (text : String)
deriving Repr, DecidableEq

/-- The components of the diagnostic string `locate_execution_errors`
formats: module name, the four `get_task_data` context fields, and the raw
failure text (`json_data['stdout']`). -/
structure ExecDiagnostic where
  module_name : String
  task_name : String
  task_action : String
  task_host : String
  task_host_ip : String
  failure_text : String
deriving Repr, DecidableEq

/-- The two messages `parse_warning_message` can print: the
could-not-determine-cause form and the attributed form (module name, task
name, task action, host, host address, warning text). -/
inductive WarnReport
  | unattributed (module_name message : String)
  | attributed (module_name task_name task_action task_host task_host_ip
      message : String)
deriving Repr, DecidableEq

/-- The exceptions the wrapper can raise: `AnsibleRunTimeExecution`
(carrying the optional diagnostic - `locate_execution_errors` returns
`None` when no event matches its failure pattern), `DataParsingException`
(carrying the offending line), Python's `json.JSONDecodeError` from
`json.loads` on a non-JSON line, and `IndexError` from indexing an empty
list. -/
inductive WrapError
  | ansibleRunTime (message : Option ExecDiagnostic)
  | dataParsing (line : String)
  | jsonDecode
  | indexError
deriving Repr, DecidableEq

/-- The character list `pat` occurs at the head of `text`. -/
def matchesAt : List Char → List Char → Bool
  | [], _ => true
  | _ :: _, [] => false
  | c :: p, d :: t => c == d && matchesAt p t

/-- The character list `pat` occurs somewhere inside `text`. -/
def scanFor (pat : List Char) : List Char → Bool
  | [] => matchesAt pat []
  | d :: t => matchesAt pat (d :: t) || scanFor pat t

/-- The failure pattern of `locate_execution_errors`:
`re.search(r'.*: FAILED! .*', s)` succeeds iff some line of `s` contains
the substring ": FAILED! " (the pattern itself contains no newline, so this
is plain substring containment). -/
def containsFailed (s : String) : Bool :=
  scanFor ": FAILED! ".data s.data

/-- Model of `AnsibleWrapper.get_task_data`: each missing context field
degrades to the `'Unknown'` sentinel. -/
def get_task_data (task : EventJson) : String × String × String × String :=
  match task.event_data with
  | none => ("Unknown", "Unknown", "Unknown", "Unknown")
  | some ed =>
    (ed.task.getD "Unknown", ed.task_action.getD "Unknown",
     ed.host.getD "Unknown", ed.remote_addr.getD "Unknown")

/-- An event triggers `locate_execution_errors`: it has a `stdout` key, the
text is truthy, and the text matches the failure pattern. -/
def failTriggers (e : EventJson) : Bool :=
  match e.stdout with
  | none => false
  | some s => decide (s ≠ "") && containsFailed s

/-- Model of `AnsibleWrapper.locate_execution_errors`: the diagnostic built
from the first matching event, or `None` (the implicit Python return) when
no event matches. -/
def locate_execution_errors (module_name : String)
    (stdout_events : List EventJson) : Option ExecDiagnostic :=
  (stdout_events.find? failTriggers).map (fun e =>
    let t := get_task_data e
    ⟨module_name, t.1, t.2.1, t.2.2.1, t.2.2.2, e.stdout.getD ""⟩)

/-- Python list indexing with negative-index wraparound, as in
`lines[entry - 1]`: a negative index counts from the end; `none` models
`IndexError`. -/
def pyIndex (l : List RawLine) (i : Int) : Option RawLine :=
  if 0 ≤ i then l[i.toNat]?
  else if (-i).toNat ≤ l.length then l[(l.length - (-i).toNat)]?
  else none

/-- Model of `json.loads` on one raw line as used by
`parse_warning_message`: only a JSON line parses. -/
def pyJsonLoads : RawLine → Except WrapError EventJson
  | .jsonLine e => .ok e
  | _ => .error .jsonDecode

/-- Model of `AnsibleWrapper.parse_warning_message`.  The source computes
`has_previous_entry = (entry - 1) < 0`, which is `True` exactly when
`entry == 0`, i.e. exactly when there is NO previous line; the guard
`if not has_previous_entry` therefore prints the could-not-determine-cause
message whenever a previous line exists, and when the warning is the first
line the code proceeds to `json.loads(lines[entry - 1])`, which by Python
negative indexing reads `lines[-1]`, the LAST line of the whole output
(raising `json.JSONDecodeError` when that line is not JSON, e.g. when the
warning is the only line). -/
def parse_warning_message (module_name message : String) (entry : Nat)
    (lines : List RawLine) : Except WrapError WarnReport :=
  if entry = 0 then
    match pyIndex lines ((entry : Int) - 1) with
    | none => .error .indexError
    | some prev => do
      let previous_entry ← pyJsonLoads prev
      let t := get_task_data previous_entry
      pure (.attributed module_name t.1 t.2.1 t.2.2.1 t.2.2.2 message)
  else
    .ok (.unattributed module_name message)

/-- Worker for `clean_stdout`: classify each line in order, carrying the
running index `entry` and the full original line list (which
`parse_warning_message` re-indexes). -/
def cleanAux (module_name : String) (all_lines : List RawLine) :
    Nat → List RawLine → Except WrapError (List EventJson × List WarnReport)
  | _, [] => .ok ([], [])
  | entry, line :: rest =>
    match line with
    | .warning msg => do
      let w ← parse_warning_message module_name msg entry all_lines
      let (cleaned, warns) ← cleanAux module_name all_lines (entry + 1) rest
      pure (cleaned, w :: warns)
    | .jsonLine e => do
      let (cleaned, warns) ← cleanAux module_name all_lines (entry + 1) rest
      pure (e :: cleaned, warns)
    | .garbage s => .error (.dataParsing s)

/-- Model of `AnsibleWrapper.clean_stdout`: warning-matching lines are
diverted to `parse_warning_message` (their reports are the printed
messages, returned here alongside), remaining lines must be valid JSON
(else `DataParsingException`), and the JSON lines are kept in order. -/
def clean_stdout (module_name : String) (lines : List RawLine) :
    Except WrapError (List EventJson × List WarnReport) :=
  cleanAux module_name lines 0 lines

/-- Model of `AnsibleWrapper.construct_json_data`: split and clean the
output, and on a nonzero return code raise `AnsibleRunTimeExecution`
carrying whatever `locate_execution_errors` found (possibly `None`).  The
final join-and-reparse of the cleaned JSON lines always succeeds and is
modelled by returning the cleaned events. -/
def construct_json_data (module_name : String) (lines : List RawLine)
    (rc : Int) : Except WrapError (List EventJson × List WarnReport) := do
  let (cleaned, warns) ← clean_stdout module_name lines
  if rc ≠ 0 then
    .error (.ansibleRunTime (locate_execution_errors module_name cleaned))
  else
    pure (cleaned, warns)

end AnsibleWrapper

namespace HIAB

/-- Spec with only a name and dependency list (description and variables
irrelevant to the graph claims). -/
def mkSpec (n : String) (deps : List String) : ModuleSpec :=
  ⟨n, "", deps, []⟩

/-- Catalog with two disjoint dependency cycles: A and B depend on each
other, and C and D depend on each other. -/
def c1Specs : List ModuleSpec :=
  [mkSpec "A" ["B"], mkSpec "B" ["A"], mkSpec "C" ["D"], mkSpec "D" ["C"]]

/-- The dependency graph the full selection [A, B, C, D] declares: all four
dependency edges. -/
def c1FullGraph : DiGraph :=
  addEdge (addEdge (addEdge (addEdge DiGraph.empty "B" "A") "A" "B") "D" "C") "C" "D"

/-- Catalog where A depends on B and B has no dependencies. -/
def c2Specs : List ModuleSpec :=
  [mkSpec "A" ["B"], mkSpec "B" ["None"]]

/-- The state `process_modules` reaches from the selection [A] over
`c2Specs`: B was discovered as a dependency and processed in the same
pass. -/
def c2State : PMState :=
  ⟨["A", "B"], [mkSpec "A" ["B"], mkSpec "B" ["None"]],
   ⟨["A", "B"], [("B", "A")]⟩⟩

/-- The spec-scenario graph: A depends on B, B depends on C
(edges dependency -> dependent). -/
def c3Graph : DiGraph :=
  addEdge (addEdge DiGraph.empty "B" "A") "C" "B"

/-- A module declaring one required variable `port` of type `int`. -/
def c4Spec : ModuleSpec :=
  ⟨"web", "", ["None"], [⟨"port", "int", .int 80, ""⟩]⟩

/-- A configuration document supplying the string "ten" for the integer
variable `port`. -/
def c4Config : List ConfigModule :=
  [⟨"web", [⟨"port", "", .str "ten"⟩]⟩]

/-- A correctly filled configuration document for `c4Spec`. -/
def c5Config : List ConfigModule :=
  [⟨"web", [⟨"port", "", .int 8080⟩]⟩]

/-- A catalog with a single module named Alpha. -/
def c8Specs : List ModuleSpec := [mkSpec "Alpha" ["None"]]

/-- Catalog for the sentinel-exclusion claim: Solo has the no-dependency
sentinel and nothing depends on it; A depends on B. -/
def c9Specs : List ModuleSpec :=
  [mkSpec "Solo" ["None"], mkSpec "A" ["B"], mkSpec "B" ["None"]]

/-- A module spec whose dependency list is literally empty. -/
def c9EmptySpec : ModuleSpec := ⟨"E", "", [], []⟩

/-- The state `process_modules` reaches from the selection [Solo, A] over
`c9Specs`: Solo is skipped by the sentinel test, so only A and B become
graph nodes. -/
def c9State : PMState :=
  ⟨["Solo", "A", "B"],
   [mkSpec "Solo" ["None"], mkSpec "A" ["B"], mkSpec "B" ["None"]],
   ⟨["A", "B"], [("B", "A")]⟩⟩

/-- A module declaring variables x (int) then y (str), in that order. -/
def c10Spec : ModuleSpec :=
  ⟨"m10", "", ["None"],
   [⟨"x", "int", .int 0, ""⟩, ⟨"y", "str", .str "", ""⟩]⟩

/-- Entries for `c10Spec` listing y before x; each value matches its OWN
variable's declared type, only the order differs from the spec. -/
def c10Entries : List ConfigVar :=
  [⟨"y", "", .str "s"⟩, ⟨"x", "", .int 1⟩]

/-- A module declaring a single variable x (int). -/
def c10SpecOne : ModuleSpec :=
  ⟨"m11", "", ["None"], [⟨"x", "int", .int 0, ""⟩]⟩

/-- Two well-typed, validly named entries for the single-variable spec
`c10SpecOne`: one more entry than the spec declares. -/
def c10EntriesLong : List ConfigVar :=
  [⟨"x", "", .int 1⟩, ⟨"x", "", .int 2⟩]

/-- Entry `k` of the block has a declared name and passes the positional
type check that `checkEntriesAux` applies at position `k`. -/
def PassAt (spec : ModuleSpec) (k : Nat) (e : ConfigVar) : Prop :=
  spec.required_variables.any (fun x => x.name == e.Name) = true ∧
  ∃ vs ty, spec.required_variables[k]? = some vs ∧
    type_mappings vs.type = some ty ∧ isinstance e.Value ty = true

/-- The block's entry at position `k` exists and passes. -/
def EntryPasses (spec : ModuleSpec) (entries : List ConfigVar) (k : Nat) : Prop :=
  ∃ e, entries[k]? = some e ∧ PassAt spec k e

/-- The descending list [f (a + k - 1), ..., f (a + 1), f a]; used to turn a
backwards walk of the dependency graph into a cycle chain. -/
def descList (f : Nat → String) (a : Nat) : Nat → List String
  | 0 => []
  | k + 1 => f (a + k) :: descList f a k

/-- The module named `n` contributes no dependency outside `ns`: whenever
its spec resolves with a non-sentinel dependency list, all of its declared
dependencies are members of `ns`. -/
def Covered (all_modules : List ModuleSpec) (ns : List String) (n : String) : Prop :=
  ∀ s d ds, get_module_spec all_modules n = some s → s.dependencies = d :: ds →
    sentinelHead d = false → ∀ x ∈ d :: ds, x ∈ ns

/-- Every node of the dependency graph is sourced from some listed module
with a non-sentinel dependency declaration: it is that module's own name or
one of its declared dependencies. -/
def GraphSourced (all_modules : List ModuleSpec) (ns : List String)
    (g : DiGraph) : Prop :=
  ∀ x ∈ g.nodes, ∃ n spec d ds, n ∈ ns ∧
    get_module_spec all_modules n = some spec ∧
    spec.dependencies = d :: ds ∧ sentinelHead d = false ∧
    (x = n ∨ x ∈ d :: ds)

/-- The edge is a dependency edge the catalog declares: its target is a
module whose spec resolves with a non-sentinel dependency list, and its
source is one of that module's declared dependencies. -/
def DeclaredEdge (all_modules : List ModuleSpec) (e : String × String) : Prop :=
  ∃ n spec d ds, get_module_spec all_modules n = some spec ∧
    spec.dependencies = d :: ds ∧ sentinelHead d = false ∧
    e.2 = n ∧ e.1 ∈ d :: ds

/-- Every edge of the graph is a declared dependency edge. -/
def EdgeSourced (all_modules : List ModuleSpec) (g : DiGraph) : Prop :=
  ∀ e ∈ g.edges, DeclaredEdge all_modules e

/-- The cycle list carried by a planning outcome when that outcome is a
`ModuleConfigurationError`; `none` otherwise. -/
def mceCycles : Except HiabError (PMState × List String) →
    Option (List (List String))
  | .error (.moduleConfigurationError cs) => some cs
  | _ => none

end HIAB

namespace AnsibleWrapper

/-- A structured ok event with full context and an `ok:` stdout line (no
FAILED marker). -/
def okEvent : EventJson :=
  ⟨some "ok: [host1]",
   some ⟨some "Gather", some "setup", some "host1", some "10.0.0.1"⟩⟩

end AnsibleWrapper

/-- Binding a successful `Except` computation just applies the
continuation. -/
theorem exceptBindOk {ε α β : Type} (a : α) (f : α → Except ε β) :
    (Except.ok a >>= f : Except ε β) = f a := rfl

/-- Binding a failed `Except` computation propagates the error. -/
theorem exceptBindError {ε α β : Type} (e : ε) (f : α → Except ε β) :
    (Except.error e >>= f : Except ε β) = Except.error e := rfl

/-- The monadic `pure` of `Except` is `Except.ok`. -/
theorem exceptPureEq {ε α : Type} (a : α) :
    (pure a : Except ε α) = Except.ok a := rfl

namespace HIAB

/-- C4: the claim says `validate_configuration_file` never raises on a bad
entry, annotates every violating entry in place, returns false and persists
the annotated document; in particular a variable declared `int` with
supplied value "ten" should yield false plus a type-mismatch annotation.
The code instead raises `KeyError('type')` on that very scenario, because
building the annotation reads the nonexistent spec key `module_spec['type']`
(line 520), so no annotation is stored, nothing is persisted, and no boolean
is returned. -/
theorem C4_type_mismatch_raises :
    validate_configuration_file [c4Spec] c4Config = .error (.keyError "type") := by
  rfl

/-- C8: the claim says an invalid wanted-module name makes
`validate_modules` return false and rewrite the selection file with an
inline annotation on the invalid entry.  The code instead raises
`TypeError` at `module_choices["wanted_modules"][module] = ...`, which
indexes the wanted-modules Python list with a string, so nothing is
annotated or persisted and false is never returned; a fully valid selection
returns True as documented. -/
theorem C8_invalid_module_raises :
    validate_modules c8Specs ["NotAModule"] = .error .typeError ∧
    validate_modules c8Specs ["Alpha"] = .ok true := by
  exact ⟨rfl, rfl⟩

end HIAB

namespace AnsibleWrapper

/-- C7: the claim says a warning preceded by a structured event is reported
with that event's context, and a warning with no preceding line is surfaced
standalone as unattributed.  The code computes
`has_previous_entry = (entry - 1) < 0`, inverting the test: a warning that
HAS a preceding event (second conjunct's stream) is printed as
could-not-determine-cause; a warning that is the first line either crashes
in `json.loads(lines[-1])` on its own text when it is the only line, or is
attributed to the LAST line of the whole output (here an event that comes
after it). -/
theorem C7_warning_attribution_bug :
    clean_stdout "mod" [.jsonLine okEvent, .warning "W"] =
      .ok ([okEvent], [.unattributed "mod" "W"]) ∧
    clean_stdout "mod" [.warning "W"] = .error .jsonDecode ∧
    clean_stdout "mod" [.warning "W", .jsonLine okEvent] =
      .ok ([okEvent], [.attributed "mod" "Gather" "setup" "host1" "10.0.0.1" "W"]) := by
  exact ⟨rfl, rfl, rfl⟩

/-- C6 counterexample: engine exit code 2 with a stream holding a single ok
event.  The claim says a distinct UnexplainedExecutionError is raised; the
code raises the ordinary `AnsibleRunTimeExecution` with message `None`
(`locate_execution_errors` falls off its loop), and no distinct error class
exists in the source. -/
theorem C6_counterexample :
    construct_json_data "netbox" [.jsonLine okEvent] 2 =
      .error (.ansibleRunTime none) := by
  rfl

/-- C6 (amended): whenever the engine exit code is nonzero and no cleaned
event matches the failure pattern, `construct_json_data` raises the same
`AnsibleRunTimeExecution` used for attributed failures, carrying `None`
instead of a diagnostic; no distinct UnexplainedExecutionError exists. -/
theorem C6_unexplained_amended (module_name : String) (lines : List RawLine)
    (rc : Int) (cleaned : List EventJson) (warns : List WarnReport)
    (hclean : clean_stdout module_name lines = .ok (cleaned, warns))
    (hrc : rc ≠ 0)
    (hok : ∀ e ∈ cleaned, failTriggers e = false) :
    construct_json_data module_name lines rc = .error (.ansibleRunTime none) := by
  have hfind : cleaned.find? failTriggers = none :=
    List.find?_eq_none.mpr (fun e he => by simp [hok e he])
  unfold construct_json_data
  rw [hclean, exceptBindOk]
  simp [hrc, locate_execution_errors, hfind]

/-- Witness for the amended C6 theorem at a concrete run: exit code 1 with
one ok event. -/
theorem C6_witness :
    construct_json_data "demo" [.jsonLine okEvent] 1 =
      .error (.ansibleRunTime none) :=
  C6_unexplained_amended "demo" [.jsonLine okEvent] 1 [okEvent] [] rfl
    (by decide) (by decide)

end AnsibleWrapper

namespace HIAB

/-- C1 counterexample: on the selection [A, B, C, D] over `c1Specs` the
planner raises the moment the A-B cycle closes (a
`ModuleConfigurationError`, witnessed through the `mceCycles` projection),
and some listed chain runs through A - but no listed chain mentions C or D
at all, even though C -> D (-> C) is a simple cycle of the graph the full
input declares.  The facts below are insensitive to how many rotations of
each cycle the enumeration lists, so they refute the claim under any
per-cycle listing convention, including the one-chain-per-cycle output of
`networkx.simple_cycles`: an error message containing no chain through C
cannot list the C-D cycle.  The claim that the message lists EVERY simple
cycle present in the input's graph is therefore false. -/
theorem C1_counterexample :
    (mceCycles (load_desired_modules c1Specs ["A", "B", "C", "D"] 10)
      ).isSome = true ∧
    ((mceCycles (load_desired_modules c1Specs ["A", "B", "C", "D"] 10)
      ).getD []).any (fun c => decide (("A" : String) ∈ c)) = true ∧
    isSimpleCycle c1FullGraph ["C", "D"] = true ∧
    ((mceCycles (load_desired_modules c1Specs ["A", "B", "C", "D"] 10)
      ).getD []).all (fun c =>
        decide (("C" : String) ∉ c) && decide (("D" : String) ∉ c)) = true := by
  exact ⟨rfl, rfl, rfl, rfl⟩

end HIAB

namespace HIAB

/-- A successful `validate_configuration_file` call always returns valid =
True with the document unchanged and nothing re-persisted: every invalid
entry raises inside the loop before any annotation is stored. -/
theorem validateConfigOkShape (all_modules : List ModuleSpec)
    (config : List ConfigModule) (out : Bool × List ConfigModule × Bool)
    (h : validate_configuration_file all_modules config = .ok out) :
    out = (true, config, false) := by
  unfold validate_configuration_file at h
  cases hl : validateConfigLoop all_modules config with
  | error e => rw [hl, exceptBindError] at h; exact absurd h (by simp)
  | ok u =>
    rw [hl, exceptBindOk] at h
    have h2 : (Except.ok (true, config, false) :
        Except HiabError (Bool × List ConfigModule × Bool)) = .ok out := h
    injection h2 with h3
    exact h3.symm

/-- C5: validation of an already-valid configuration document is
idempotent.  Whenever `validate_configuration_file` returns normally it
returns True, leaves the document exactly as it was, performs no
re-persist, and running it again on the returned document gives the same
successful result. -/
theorem C5_validate_idempotent (all_modules : List ModuleSpec)
    (config : List ConfigModule) (out : Bool × List ConfigModule × Bool)
    (h : validate_configuration_file all_modules config = .ok out) :
    out.1 = true ∧ out.2.1 = config ∧ out.2.2 = false ∧
    validate_configuration_file all_modules out.2.1 = .ok out := by
  have hs := validateConfigOkShape all_modules config out h
  subst hs
  exact ⟨rfl, rfl, rfl, h⟩

/-- Witness for C5 on a concrete valid document. -/
theorem C5_witness :
    (((true : Bool), c5Config, (false : Bool)).1 = true ∧
      ((true : Bool), c5Config, (false : Bool)).2.1 = c5Config ∧
      ((true : Bool), c5Config, (false : Bool)).2.2 = false ∧
      validate_configuration_file [c4Spec]
        ((true : Bool), c5Config, (false : Bool)).2.1 =
          .ok ((true : Bool), c5Config, (false : Bool))) :=
  C5_validate_idempotent [c4Spec] c5Config (true, c5Config, false) rfl

end HIAB

namespace HIAB

/-- A single-block configuration document propagates an inner-loop error
out of `validate_configuration_file`. -/
theorem validateSingleError (all_modules : List ModuleSpec) (mName : String)
    (spec : ModuleSpec) (entries : List ConfigVar) (E : HiabError)
    (hlk : get_module_spec all_modules mName = some spec)
    (hck : checkEntriesAux spec 0 entries = .error E) :
    validate_configuration_file all_modules [⟨mName, entries⟩] = .error E := by
  have hloop : validateConfigLoop all_modules [⟨mName, entries⟩] = .error E := by
    simp [validateConfigLoop, hlk, hck]
  unfold validate_configuration_file
  rw [hloop, exceptBindError]

/-- An entry that passes its positional check moves the inner loop to the
next position. -/
theorem checkEntriesStep (spec : ModuleSpec) (j : Nat) (v : ConfigVar)
    (rest : List ConfigVar) (hp : PassAt spec j v) :
    checkEntriesAux spec j (v :: rest) = checkEntriesAux spec (j + 1) rest := by
  obtain ⟨hname, vs, ty, hvs, hty, hinst⟩ := hp
  simp [checkEntriesAux, hname, hvs, hty, hinst]

/-- Walking the inner loop across a block of entries that all pass their
positional checks advances the position by the block's length. -/
theorem checkEntriesWalk (spec : ModuleSpec) :
    ∀ (pre : List ConfigVar) (j : Nat) (rest : List ConfigVar),
      (∀ k e, pre[k]? = some e → PassAt spec (j + k) e) →
      checkEntriesAux spec j (pre ++ rest) =
        checkEntriesAux spec (j + pre.length) rest := by
  intro pre
  induction pre with
  | nil => intro j rest _; simp
  | cons v pre ih =>
    intro j rest hp
    have h0 : PassAt spec j v := by simpa using hp 0 v (by simp)
    rw [List.cons_append, checkEntriesStep spec j v (pre ++ rest) h0]
    rw [ih (j + 1) rest ?later]
    case later =>
      intro k e hk
      have h1 := hp (k + 1) e (by simpa using hk)
      rwa [show j + (k + 1) = j + 1 + k by omega] at h1
    congr 1
    simp
    omega

/-- C10: `validate_configuration_file` pairs each configuration entry with
the module spec's `required_variables` by list position, not by name: once
the first `j` entries pass their positional checks, the entry at position
`j` (whatever its name, as long as the name is declared) is type-checked
against the declared type of the spec variable at position `j` - a
mismatch there raises as for any type error - and when the block holds
more entries than the spec declares variables, the positional lookup
`module_spec["required_variables"][j]` goes out of range and raises
`IndexError`. -/
theorem C10_positional_type_check (all_modules : List ModuleSpec)
    (mName : String) (spec : ModuleSpec) (entries : List ConfigVar) (j : Nat)
    (e : ConfigVar)
    (hlk : get_module_spec all_modules mName = some spec)
    (hpass : ∀ k, k < j → EntryPasses spec entries k)
    (hj : entries[j]? = some e)
    (hname : spec.required_variables.any (fun x => x.name == e.Name) = true) :
    (∀ vs ty, spec.required_variables[j]? = some vs →
      type_mappings vs.type = some ty → isinstance e.Value ty = false →
      validate_configuration_file all_modules [⟨mName, entries⟩] =
        .error (.keyError "type")) ∧
    (spec.required_variables.length ≤ j →
      validate_configuration_file all_modules [⟨mName, entries⟩] =
        .error .indexError) := by
  have hget := List.getElem?_eq_some_iff.mp hj
  obtain ⟨hjl, hgete⟩ := hget
  have hdrop : entries.drop j = e :: entries.drop (j + 1) := by
    rw [List.drop_eq_getElem_cons hjl, hgete]
  have hlen : (entries.take j).length = j := by
    simp [List.length_take]
    omega
  have hpasses : ∀ k e', (entries.take j)[k]? = some e' →
      PassAt spec (0 + k) e' := by
    intro k e' hk
    have hklt : k < j := by
      have hkb := (List.getElem?_eq_some_iff.mp hk).1
      rw [hlen] at hkb
      exact hkb
    obtain ⟨e'', hk'', hpa⟩ := hpass k hklt
    rw [List.getElem?_take_of_lt hklt] at hk
    rw [hk] at hk''
    injection hk'' with he
    rw [Nat.zero_add]
    rwa [he]
  have hwalk : checkEntriesAux spec 0 entries =
      checkEntriesAux spec j (e :: entries.drop (j + 1)) := by
    conv_lhs => rw [(List.take_append_drop j entries).symm, hdrop]
    rw [checkEntriesWalk spec (entries.take j) 0 _ hpasses, hlen, Nat.zero_add]
  constructor
  · intro vs ty hvs hty hinst
    refine validateSingleError all_modules mName spec entries _ hlk ?_
    rw [hwalk]
    simp [checkEntriesAux, hname, hvs, hty, hinst]
  · intro hle
    refine validateSingleError all_modules mName spec entries _ hlk ?_
    rw [hwalk]
    have hnone : spec.required_variables[j]? = none :=
      List.getElem?_eq_none hle
    simp [checkEntriesAux, hname, hnone]

/-- Witness for C10 on the two concrete inputs: a block listing y before x
(each value well typed for its own name) fails the positional int check
with `KeyError('type')`, and a block with two entries against a
one-variable spec fails with `IndexError`. -/
theorem C10_witness :
    validate_configuration_file [c10Spec] [⟨"m10", c10Entries⟩] =
      .error (.keyError "type") ∧
    validate_configuration_file [c10SpecOne] [⟨"m11", c10EntriesLong⟩] =
      .error .indexError := by
  constructor
  · exact (C10_positional_type_check [c10Spec] "m10" c10Spec c10Entries 0
      ⟨"y", "", .str "s"⟩ rfl (fun k hk => absurd hk (by omega)) rfl
      (by decide)).1 ⟨"x", "int", .int 0, ""⟩ .int rfl rfl (by decide)
  · exact (C10_positional_type_check [c10SpecOne] "m11" c10SpecOne
      c10EntriesLong 1 ⟨"x", "", .int 2⟩ rfl
      (fun k hk => by
        have hk0 : k = 0 := by omega
        subst hk0
        exact ⟨⟨"x", "", .int 1⟩, rfl, by decide,
          ⟨"x", "int", .int 0, ""⟩, .int, rfl, rfl, rfl⟩)
      rfl (by decide)).2 (by decide)

end HIAB

namespace HIAB

/-- Appending dependencies only ever appends to the names list. -/
theorem addNamesAppend :
    ∀ (deps names : List String),
      ∃ t, add_module_dependencies_to_desired_modules names deps = names ++ t := by
  intro deps
  induction deps with
  | nil => intro names; exact ⟨[], by simp [add_module_dependencies_to_desired_modules]⟩
  | cons d ds ih =>
    intro names
    by_cases hd : d ∈ names
    · obtain ⟨t, ht⟩ := ih names
      exact ⟨t, by simpa [add_module_dependencies_to_desired_modules, hd] using ht⟩
    · obtain ⟨t, ht⟩ := ih (names ++ [d])
      refine ⟨[d] ++ t, ?_⟩
      simpa [add_module_dependencies_to_desired_modules, hd, List.append_assoc] using ht

/-- Membership in the names list survives appending dependencies. -/
theorem addNamesMono (deps names : List String) (x : String) (hx : x ∈ names) :
    x ∈ add_module_dependencies_to_desired_modules names deps := by
  obtain ⟨t, ht⟩ := addNamesAppend deps names
  rw [ht]
  exact List.mem_append_left t hx

/-- Every processed dependency ends up in the names list. -/
theorem addNamesAdds :
    ∀ (deps names : List String) (d : String), d ∈ deps →
      d ∈ add_module_dependencies_to_desired_modules names deps := by
  intro deps
  induction deps with
  | nil => intro names d hd; cases hd
  | cons d0 ds ih =>
    intro names d hd
    rcases List.mem_cons.mp hd with h | h
    · subst h
      by_cases hd0 : d ∈ names
      · simpa [add_module_dependencies_to_desired_modules, hd0] using
          addNamesMono ds names d hd0
      · simpa [add_module_dependencies_to_desired_modules, hd0] using
          addNamesMono ds (names ++ [d]) d (by simp)
    · by_cases hd0 : d0 ∈ names
      · simpa [add_module_dependencies_to_desired_modules, hd0] using ih names d h
      · simpa [add_module_dependencies_to_desired_modules, hd0] using
          ih (names ++ [d0]) d h

/-- When every dependency is already listed, nothing is appended. -/
theorem addNamesNoNew :
    ∀ (deps names : List String), (∀ d ∈ deps, d ∈ names) →
      add_module_dependencies_to_desired_modules names deps = names := by
  intro deps
  induction deps with
  | nil => intro names _; simp [add_module_dependencies_to_desired_modules]
  | cons d ds ih =>
    intro names h
    have hd : d ∈ names := h d (by simp)
    have := ih names (fun x hx => h x (by simp [hx]))
    simpa [add_module_dependencies_to_desired_modules, hd] using this

/-- A successful run of the expansion loop only ever appends names. -/
theorem processAuxAppend (all_modules : List ModuleSpec) :
    ∀ (fuel i : Nat) (st st' : PMState),
      processAux all_modules fuel i st = .ok st' →
      ∃ t, st'.names = st.names ++ t := by
  intro fuel
  induction fuel with
  | zero =>
    intro i st st' h
    simp only [processAux] at h
    split at h
    · exact absurd h (by simp)
    · refine ⟨[], ?_⟩
      injection h with h2
      rw [← h2]
      simp
  | succ fuel ih =>
    intro i st st' h
    simp only [processAux] at h
    split at h
    · refine ⟨[], ?_⟩
      injection h with h2
      rw [← h2]
      simp
    case _ module_name hni =>
      split at h
      · exact absurd h (by simp)
      case _ spec hspec =>
        split at h
        · exact absurd h (by simp)
        case _ d ds hdeps =>
          split at h
          · exact ih (i + 1)
              ⟨st.names, st.modules ++ [spec], st.graph⟩ st' h
          · split at h
            · exact absurd h (by simp)
            case _ g hg =>
              obtain ⟨t2, ht2⟩ := ih (i + 1)
                ⟨add_module_dependencies_to_desired_modules st.names (d :: ds),
                 st.modules ++ [spec], g⟩ st' h
              obtain ⟨t1, ht1⟩ := addNamesAppend (d :: ds) st.names
              refine ⟨t1 ++ t2, ?_⟩
              calc st'.names
                  = add_module_dependencies_to_desired_modules st.names (d :: ds)
                      ++ t2 := ht2
                _ = (st.names ++ t1) ++ t2 := by rw [ht1]
                _ = st.names ++ (t1 ++ t2) := by rw [List.append_assoc]

end HIAB

namespace HIAB

/-- After a completed expansion run, every name on the final list is
covered: all dependencies its spec declares (when non-sentinel) are
themselves on the final list.  The hypothesis says the names before
position `i` are already covered. -/
theorem processAuxClosure (all_modules : List ModuleSpec) :
    ∀ (fuel i : Nat) (st st' : PMState),
      processAux all_modules fuel i st = .ok st' →
      (∀ k, k < i → ∀ n, st.names[k]? = some n →
        Covered all_modules st'.names n) →
      ∀ n, n ∈ st'.names → Covered all_modules st'.names n := by
  intro fuel
  induction fuel with
  | zero =>
    intro i st st' h hk n hn
    simp only [processAux] at h
    split at h
    · exact absurd h (by simp)
    next hge =>
      injection h with h2
      subst h2
      obtain ⟨k, hkn⟩ := List.mem_iff_getElem?.mp hn
      have hklen := (List.getElem?_eq_some_iff.mp hkn).1
      exact hk k (by omega) n hkn
  | succ fuel ih =>
    intro i st st' h hk n hn
    simp only [processAux] at h
    split at h
    next hni =>
      injection h with h2
      subst h2
      obtain ⟨k, hkn⟩ := List.mem_iff_getElem?.mp hn
      have hklen := (List.getElem?_eq_some_iff.mp hkn).1
      have hge := List.getElem?_eq_none_iff.mp hni
      exact hk k (by omega) n hkn
    case _ module_name hni =>
      have hilen := (List.getElem?_eq_some_iff.mp hni).1
      split at h
      · exact absurd h (by simp)
      case _ spec hspec =>
        split at h
        · exact absurd h (by simp)
        case _ d ds hdeps =>
          split at h
          next hsent =>
            refine ih (i + 1) ⟨st.names, st.modules ++ [spec], st.graph⟩ st' h
              ?_ n hn
            intro k hk1 n' hn'
            by_cases hki : k = i
            · subst hki
              have hsame : n' = module_name := by
                rw [hni] at hn'
                injection hn' with h2
                exact h2.symm
              subst hsame
              intro s d0 ds0 hs hdeps0 hsent0 x hx
              rw [hspec] at hs
              injection hs with hs
              subst hs
              rw [hdeps] at hdeps0
              injection hdeps0 with hd0 hds0
              subst hd0
              rw [hsent] at hsent0
              exact absurd hsent0 (by simp)
            · exact hk k (by omega) n' hn'
          · split at h
            · exact absurd h (by simp)
            case _ g hg =>
              have happ2 := processAuxAppend all_modules fuel (i + 1)
                ⟨add_module_dependencies_to_desired_modules st.names (d :: ds),
                 st.modules ++ [spec], g⟩ st' h
              obtain ⟨t2, ht2⟩ := happ2
              obtain ⟨t1, ht1⟩ := addNamesAppend (d :: ds) st.names
              refine ih (i + 1)
                ⟨add_module_dependencies_to_desired_modules st.names (d :: ds),
                 st.modules ++ [spec], g⟩ st' h ?_ n hn
              intro k hk1 n' hn'
              have hproj : (⟨add_module_dependencies_to_desired_modules st.names
                  (d :: ds), st.modules ++ [spec], g⟩ : PMState).names =
                  st.names ++ t1 := ht1
              by_cases hki : k = i
              · subst hki
                have hn'' : n' = module_name := by
                  rw [hproj, List.getElem?_append_left hilen, hni] at hn'
                  injection hn' with h2
                  exact h2.symm
                subst hn''
                intro s d0 ds0 hs hdeps0 hsent0 x hx
                rw [hspec] at hs
                injection hs with hs
                subst hs
                rw [hdeps] at hdeps0
                injection hdeps0 with hd0 hds0
                subst hd0
                subst hds0
                have hx1 : x ∈ add_module_dependencies_to_desired_modules
                    st.names (d :: ds) := addNamesAdds (d :: ds) st.names x hx
                rw [ht2]
                exact List.mem_append_left t2 hx1
              · have hklt : k < st.names.length := by omega
                rw [hproj, List.getElem?_append_left hklt] at hn'
                exact hk k (by omega) n' hn'

/-- When every listed name is already covered, a further expansion run
appends nothing: the names list is a fixpoint. -/
theorem processAuxNoGrowth (all_modules : List ModuleSpec) :
    ∀ (fuel i : Nat) (st st' : PMState),
      processAux all_modules fuel i st = .ok st' →
      (∀ n, n ∈ st.names → Covered all_modules st.names n) →
      st'.names = st.names := by
  intro fuel
  induction fuel with
  | zero =>
    intro i st st' h _
    simp only [processAux] at h
    split at h
    · exact absurd h (by simp)
    · injection h with h2
      rw [← h2]
  | succ fuel ih =>
    intro i st st' h hcov
    simp only [processAux] at h
    split at h
    · injection h with h2
      rw [← h2]
    case _ module_name hni =>
      have hilen := (List.getElem?_eq_some_iff.mp hni).1
      have hmem : module_name ∈ st.names := by
        have := (List.getElem?_eq_some_iff.mp hni).2
        exact this ▸ List.getElem_mem hilen
      split at h
      · exact absurd h (by simp)
      case _ spec hspec =>
        split at h
        · exact absurd h (by simp)
        case _ d ds hdeps =>
          split at h
          next hsent =>
            exact ih (i + 1) ⟨st.names, st.modules ++ [spec], st.graph⟩ st' h hcov
          next hsent =>
            split at h
            · exact absurd h (by simp)
            case _ g hg =>
              have hsub : ∀ x ∈ d :: ds, x ∈ st.names :=
                hcov module_name hmem spec d ds hspec hdeps
                  (by revert hsent; cases sentinelHead d <;> simp)
              have heq : add_module_dependencies_to_desired_modules st.names
                  (d :: ds) = st.names := addNamesNoNew (d :: ds) st.names hsub
              have hres := ih (i + 1)
                ⟨add_module_dependencies_to_desired_modules st.names (d :: ds),
                 st.modules ++ [spec], g⟩ st' h
                (by
                  intro n hn
                  have hn2 : n ∈ st.names := by rwa [heq] at hn
                  have := hcov n hn2
                  intro s d0 ds0 hs hdeps0 hsent0 x hx
                  rw [heq]
                  exact this s d0 ds0 hs hdeps0 hsent0 x hx)
              calc st'.names
                  = add_module_dependencies_to_desired_modules st.names
                      (d :: ds) := hres
                _ = st.names := heq

/-- C2: dependency expansion reaches a fixpoint.  If `process_modules`
completes on a selection with final state `st`, then running the expansion
again on the resulting desired-module list `st.names` adds no new module:
the second run returns exactly the same name list.  The live-list iteration
processes transitively discovered dependencies in the same pass, so the
final list is closed under the dependency relation. -/
theorem C2_expansion_fixpoint (all_modules : List ModuleSpec)
    (names0 : List String) (fuel1 fuel2 : Nat) (st st2 : PMState)
    (h1 : process_modules all_modules names0 fuel1 = .ok st)
    (h2 : process_modules all_modules st.names fuel2 = .ok st2) :
    st2.names = st.names := by
  have hcov : ∀ n, n ∈ st.names → Covered all_modules st.names n :=
    processAuxClosure all_modules fuel1 0 ⟨names0, [], DiGraph.empty⟩ st h1
      (fun k hk => absurd hk (by omega))
  exact processAuxNoGrowth all_modules fuel2 0 ⟨st.names, [], DiGraph.empty⟩
    st2 h2 hcov

/-- Witness for C2 on the concrete selection [A] over `c2Specs`: the first
run discovers B; re-running on [A, B] returns the same list. -/
theorem C2_witness :
    process_modules c2Specs ["A"] 10 = .ok c2State ∧
    process_modules c2Specs c2State.names 10 = .ok c2State ∧
    c2State.names = c2State.names :=
  ⟨rfl, rfl, C2_expansion_fixpoint c2Specs ["A"] 10 10 c2State c2State rfl rfl⟩

end HIAB

namespace HIAB

/-- Inserting `x` between any split of the list is one of the enumerated
insertions. -/
theorem memInsertEverywhere (x : String) :
    ∀ (l1 l2 : List String), (l1 ++ x :: l2) ∈ insertEverywhere x (l1 ++ l2) := by
  intro l1
  induction l1 with
  | nil =>
    intro l2
    cases l2 <;> simp [insertEverywhere]
  | cons y ys ih =>
    intro l2
    simp only [List.cons_append, insertEverywhere]
    right
    exact List.mem_map.mpr ⟨ys ++ x :: l2, ih l2, rfl⟩

/-- The permutation enumeration is complete: every list that is a
permutation of `s` is listed by `perms s`. -/
theorem permsComplete : ∀ (s l : List String), List.Perm l s → l ∈ perms s := by
  intro s
  induction s with
  | nil =>
    intro l h
    rw [h.eq_nil]
    simp [perms]
  | cons x xs ih =>
    intro l h
    have hx : x ∈ l := h.symm.subset (by simp)
    obtain ⟨l1, l2, hx1, hsplit, herase⟩ := List.exists_erase_eq hx
    have hperm : List.Perm (l.erase x) xs := by
      have := h.erase x
      rwa [List.erase_cons_head] at this
    have hmem : l.erase x ∈ perms xs := ih (l.erase x) hperm
    rw [herase] at hmem
    rw [hsplit]
    simp only [perms]
    exact List.mem_flatMap.mpr ⟨l1 ++ l2, hmem, memInsertEverywhere x l1 l2⟩

/-- The simple-cycle enumeration is complete: every duplicate-free chain of
graph nodes that closes on itself is listed by `simpleCycles`. -/
theorem simpleCyclesComplete (g : DiGraph) (c : List String)
    (hnd : c.Nodup) (hsub : ∀ x ∈ c, x ∈ g.nodes)
    (hcyc : isSimpleCycle g c = true) : c ∈ simpleCycles g := by
  obtain ⟨s, hs1, hs2⟩ := hnd.subperm (fun x hx => hsub x hx)
  refine List.mem_filter.mpr ⟨?_, hcyc⟩
  exact List.mem_flatMap.mpr
    ⟨s, List.mem_sublists.mpr hs2, permsComplete s c hs1.symm⟩

/-- Every member of a descending walk list is a walk value. -/
theorem descListMem (f0 : Nat → String) (a : Nat) :
    ∀ (k : Nat) (x : String), x ∈ descList f0 a k → ∃ m, m < k ∧ x = f0 (a + m) := by
  intro k
  induction k with
  | zero => intro x hx; cases hx
  | succ k ih =>
    intro x hx
    rcases List.mem_cons.mp hx with h | h
    · exact ⟨k, by omega, h⟩
    · obtain ⟨m, hm, hx2⟩ := ih x h
      exact ⟨m, by omega, hx2⟩

/-- A descending walk list over pairwise distinct walk values has no
duplicates. -/
theorem descListNodup (f0 : Nat → String) (a : Nat) :
    ∀ (k : Nat), (∀ m1 m2, m1 < m2 → m2 < k → f0 (a + m1) ≠ f0 (a + m2)) →
      (descList f0 a k).Nodup := by
  intro k
  induction k with
  | zero => intro _; simp [descList]
  | succ k ih =>
    intro hdist
    simp only [descList, List.nodup_cons]
    constructor
    · intro hmem
      obtain ⟨m, hm, hx⟩ := descListMem f0 a k (f0 (a + k)) hmem
      exact hdist m k hm (by omega) hx.symm
    · exact ih (fun m1 m2 h1 h2 => hdist m1 m2 h1 (by omega))

/-- A descending walk list whose steps are all edges, closed by an edge
from its last value, is an edge chain. -/
theorem descListChain (edges : List (String × String)) (f0 : Nat → String) :
    ∀ (k a : Nat) (z : String),
      (∀ m, m < k → (f0 (a + m + 1), f0 (a + m)) ∈ edges) →
      (f0 a, z) ∈ edges →
      chainB edges (descList f0 a (k + 1) ++ [z]) = true := by
  intro k
  induction k with
  | zero =>
    intro a z _ hz
    simp [descList, chainB, hz]
  | succ k ih =>
    intro a z hsteps hz
    have hstep : (f0 (a + k + 1), f0 (a + k)) ∈ edges := hsteps k (by omega)
    have hrest := ih a z (fun m hm => hsteps m (by omega)) hz
    simp only [descList, List.cons_append, chainB] at hrest ⊢
    rw [show a + (k + 1) = a + k + 1 from by omega, decide_eq_true hstep]
    simpa using hrest

end HIAB

namespace HIAB

/-- If every node of a nonempty duplicate-free list of graph nodes has an
incoming edge from inside the list, the graph has a simple cycle: following
predecessors must revisit a node, and the segment between the two visits is
a duplicate-free closed chain. -/
theorem stuckHasCycle (g : DiGraph) (S : List String) (hne : S ≠ [])
    (hsub : ∀ x ∈ S, x ∈ g.nodes)
    (hpred : ∀ v ∈ S, ∃ u, u ∈ S ∧ (u, v) ∈ g.edges) :
    simpleCycles g ≠ [] := by
  classical
  have hex : ∀ v : {x // x ∈ S}, ∃ u : {x // x ∈ S}, (u.1, v.1) ∈ g.edges := by
    intro v
    obtain ⟨u, hu, he⟩ := hpred v.1 v.2
    exact ⟨⟨u, hu⟩, he⟩
  let step : {x // x ∈ S} → {x // x ∈ S} := fun v => (hex v).choose
  have hstep : ∀ v, ((step v).1, v.1) ∈ g.edges := fun v => (hex v).choose_spec
  let f : Nat → {x // x ∈ S} :=
    fun n => Nat.rec ⟨S.head hne, List.head_mem hne⟩ (fun _ p => step p) n
  have hedge : ∀ n, ((f (n + 1)).1, (f n).1) ∈ g.edges := fun n => hstep (f n)
  have hcard : Fintype.card (Fin S.length) < Fintype.card (Fin (S.length + 1)) := by
    simp
  obtain ⟨a, b, hab, hfab⟩ := Fintype.exists_ne_map_eq_of_card_lt
    (fun k : Fin (S.length + 1) =>
      (⟨S.indexOf (f k.1).1, List.indexOf_lt_length.mpr (f k.1).2⟩ : Fin S.length))
    hcard
  have hvals : (f a.1).1 = (f b.1).1 := by
    have hidx := congrArg Fin.val hfab
    simp only [] at hidx
    exact (List.indexOf_inj (f a.1).2 (f b.1).2).mp hidx
  have hab1 : a.1 ≠ b.1 := fun hv => hab (Fin.val_injective hv)
  have hQ : ∃ jj, ∃ ii, ii < jj ∧ (f ii).1 = (f jj).1 := by
    rcases Nat.lt_or_ge a.1 b.1 with h | h
    · exact ⟨b.1, a.1, h, hvals⟩
    · exact ⟨a.1, b.1, by omega, hvals.symm⟩
  obtain ⟨i0, hi0, heq0⟩ := Nat.find_spec hQ
  have hmin := fun m (hm : m < Nat.find hQ) => Nat.find_min hQ hm
  have hdist : ∀ m1 m2, m1 < m2 → m2 < Nat.find hQ → (f m1).1 ≠ (f m2).1 := by
    intro m1 m2 h12 h2 hEq
    exact hmin m2 h2 ⟨m1, h12, hEq⟩
  obtain ⟨kk, hkk⟩ : ∃ kk, Nat.find hQ - i0 = kk + 1 :=
    ⟨Nat.find hQ - i0 - 1, by omega⟩
  have hik : i0 + kk = Nat.find hQ - 1 := by omega
  let f0 : Nat → String := fun n => (f n).1
  have hnodupc : (descList f0 i0 (kk + 1)).Nodup := by
    refine descListNodup f0 i0 (kk + 1) ?_
    intro m1 m2 h12 h2
    exact hdist (i0 + m1) (i0 + m2) (by omega) (by omega)
  have hchain : chainB g.edges (descList f0 i0 (kk + 1) ++ [f0 (i0 + kk)]) = true := by
    refine descListChain g.edges f0 kk i0 (f0 (i0 + kk)) ?_ ?_
    · intro m _
      exact hedge (i0 + m)
    · have hz : (f0 (Nat.find hQ), f0 (Nat.find hQ - 1)) ∈ g.edges := by
        have := hedge (Nat.find hQ - 1)
        rwa [show Nat.find hQ - 1 + 1 = Nat.find hQ from by omega] at this
      rw [hik]
      rw [show f0 i0 = f0 (Nat.find hQ) from heq0]
      exact hz
  have hcyc : isSimpleCycle g (descList f0 i0 (kk + 1)) = true := by
    simp only [descList, isSimpleCycle]
    rw [decide_eq_true (by simpa [descList] using hnodupc)]
    simpa [descList] using hchain
  have hmemc : ∀ x ∈ descList f0 i0 (kk + 1), x ∈ g.nodes := by
    intro x hx
    obtain ⟨m, _, hx2⟩ := descListMem f0 i0 (kk + 1) x hx
    rw [hx2]
    exact hsub (f (i0 + m)).1 (f (i0 + m)).2
  exact List.ne_nil_of_mem
    (simpleCyclesComplete g (descList f0 i0 (kk + 1)) hnodupc hmemc hcyc)

end HIAB

namespace HIAB

/-- A completed Kahn run emits a permutation of the remaining nodes. -/
theorem topoAuxPerm (edges : List (String × String)) :
    ∀ (fuel : Nat) (rem l : List String),
      topoAux edges fuel rem = some l → List.Perm l rem := by
  intro fuel
  induction fuel with
  | zero =>
    intro rem l h
    simp only [topoAux] at h
    split at h
    next hrem =>
      subst hrem
      injection h with h2
      rw [← h2]
    · exact absurd h (by simp)
  | succ fuel ih =>
    intro rem l h
    simp only [topoAux] at h
    split at h
    next hrem =>
      subst hrem
      injection h with h2
      rw [← h2]
    next hrem =>
      cases hf : rem.find? (noIncoming edges rem) with
      | none => rw [hf] at h; exact absurd h (by simp)
      | some v =>
        rw [hf] at h
        dsimp only at h
        cases hrec : topoAux edges fuel (rem.erase v) with
        | none => rw [hrec] at h; exact absurd h (by simp)
        | some l2 =>
          rw [hrec] at h
          dsimp only [Option.map] at h
          injection h with h2
          rw [← h2]
          have hv : v ∈ rem := List.mem_of_find?_eq_some hf
          exact (List.Perm.cons v (ih (rem.erase v) l2 hrec)).trans
            (List.perm_cons_erase hv).symm

/-- In a completed Kahn run over duplicate-free remaining nodes, the source
of every edge whose endpoints both remain is emitted strictly before the
target. -/
theorem topoAuxSorted (edges : List (String × String)) :
    ∀ (fuel : Nat) (rem l : List String), rem.Nodup →
      topoAux edges fuel rem = some l →
      ∀ u w, (u, w) ∈ edges → u ∈ rem → w ∈ rem →
        List.indexOf u l < List.indexOf w l := by
  intro fuel
  induction fuel with
  | zero =>
    intro rem l hnd h u w he hu hw
    simp only [topoAux] at h
    split at h
    next hrem => subst hrem; cases hu
    · exact absurd h (by simp)
  | succ fuel ih =>
    intro rem l hnd h u w he hu hw
    simp only [topoAux] at h
    split at h
    next hrem => subst hrem; cases hu
    next hrem =>
      cases hf : rem.find? (noIncoming edges rem) with
      | none => rw [hf] at h; exact absurd h (by simp)
      | some v =>
        rw [hf] at h
        dsimp only at h
        cases hrec : topoAux edges fuel (rem.erase v) with
        | none => rw [hrec] at h; exact absurd h (by simp)
        | some l2 =>
          rw [hrec] at h
          dsimp only [Option.map] at h
          injection h with h2
          rw [← h2]
          have hnoin : noIncoming edges rem v = true := List.find?_some hf
          have hnoin2 : ∀ x ∈ rem, (x, v) ∉ edges := by
            intro x hx
            have := List.all_eq_true.mp hnoin x hx
            simpa using this
          have hwv : w ≠ v := by
            intro hvw
            subst hvw
            exact hnoin2 u hu he
          have hwmem : w ∈ rem.erase v :=
            (List.mem_erase_of_ne hwv).mpr hw
          by_cases huv : u = v
          · subst huv
            rw [List.indexOf_cons_self]
            rw [List.indexOf_cons_ne l2 hwv.symm]
            omega
          · have humem : u ∈ rem.erase v :=
              (List.mem_erase_of_ne huv).mpr hu
            have := ih (rem.erase v) l2 (hnd.erase v) hrec u w he humem hwmem
            rw [List.indexOf_cons_ne l2 (fun hx => huv hx.symm),
              List.indexOf_cons_ne l2 (fun hx => hwv hx.symm)]
            omega

/-- On a graph with no simple cycle, the Kahn run cannot get stuck: with
enough fuel it returns an ordering of all remaining nodes. -/
theorem topoAuxTotal (g : DiGraph) (hacyc : simpleCycles g = []) :
    ∀ (fuel : Nat) (rem : List String), (∀ x ∈ rem, x ∈ g.nodes) →
      rem.length ≤ fuel → ∃ l, topoAux g.edges fuel rem = some l := by
  intro fuel
  induction fuel with
  | zero =>
    intro rem _ hlen
    have : rem = [] := List.eq_nil_of_length_eq_zero (by omega)
    subst this
    exact ⟨[], by simp [topoAux]⟩
  | succ fuel ih =>
    intro rem hsub hlen
    by_cases hrem : rem = []
    · subst hrem
      exact ⟨[], by simp [topoAux]⟩
    · cases hf : rem.find? (noIncoming g.edges rem) with
      | none =>
        exfalso
        have hall := List.find?_eq_none.mp hf
        have hpred : ∀ v ∈ rem, ∃ u, u ∈ rem ∧ (u, v) ∈ g.edges := by
          intro v hv
          have := hall v hv
          simp only [noIncoming] at this
          rcases List.all_eq_true.not.mp this with h2
          push_neg at h2
          obtain ⟨u, hu, hne2⟩ := h2
          refine ⟨u, hu, ?_⟩
          simpa using hne2
        exact stuckHasCycle g rem hrem hsub hpred hacyc
      | some v =>
        have hv : v ∈ rem := List.mem_of_find?_eq_some hf
        have hlen2 : (rem.erase v).length ≤ fuel := by
          rw [List.length_erase_of_mem hv]
          have : 1 ≤ rem.length := by
            cases rem
            · exact absurd rfl hrem
            · simp
          omega
        obtain ⟨l2, hl2⟩ := ih (rem.erase v)
          (fun x hx => hsub x (List.erase_subset v rem hx)) hlen2
        refine ⟨v :: l2, ?_⟩
        simp [topoAux, hrem, hf, hl2]

/-- C3: on every acyclic dependency graph (duplicate-free node list, edge
endpoints among the nodes, no simple cycle), `get_deployment_order`'s
topological sort succeeds, and every ordering it returns is a permutation
of the graph's node set in which the source of every
dependency -> dependent edge appears strictly before its target. -/
theorem C3_topological_order (g : DiGraph) (hnd : g.nodes.Nodup)
    (hend : ∀ e ∈ g.edges, e.1 ∈ g.nodes ∧ e.2 ∈ g.nodes)
    (hacyc : simpleCycles g = []) :
    (∃ ord, topological_sort g = some ord) ∧
    ∀ ord, topological_sort g = some ord →
      List.Perm ord g.nodes ∧
      ∀ u v, (u, v) ∈ g.edges → List.indexOf u ord < List.indexOf v ord := by
  constructor
  · exact topoAuxTotal g hacyc g.nodes.length g.nodes (fun x hx => hx)
      (Nat.le_refl _)
  · intro ord hord
    refine ⟨topoAuxPerm g.edges g.nodes.length g.nodes ord hord, ?_⟩
    intro u v he
    exact topoAuxSorted g.edges g.nodes.length g.nodes ord hnd hord u v he
      (hend (u, v) he).1 (hend (u, v) he).2

/-- Witness for C3 on the spec's scenario graph {A deps [B], B deps [C]}. -/
theorem C3_witness :
    ((∃ ord, topological_sort c3Graph = some ord) ∧
      ∀ ord, topological_sort c3Graph = some ord →
        List.Perm ord c3Graph.nodes ∧
        ∀ u v, (u, v) ∈ c3Graph.edges →
          List.indexOf u ord < List.indexOf v ord) :=
  C3_topological_order c3Graph (by decide) (by decide) (by rfl)

end HIAB

namespace HIAB

/-- A spec found by name lookup carries that name. -/
theorem specNameEq (all_modules : List ModuleSpec) (n : String) (s : ModuleSpec)
    (h : get_module_spec all_modules n = some s) : s.name = n := by
  have := List.find?_some h
  simpa using this

/-- Adding a node introduces at most that node. -/
theorem addNodeNodes (g : DiGraph) (n x : String)
    (hx : x ∈ (addNode g n).nodes) : x ∈ g.nodes ∨ x = n := by
  unfold addNode at hx
  split at hx
  · exact Or.inl hx
  · rcases List.mem_append.mp hx with h | h
    · exact Or.inl h
    · simp at h
      exact Or.inr h

/-- Adding an edge introduces at most its two endpoints as nodes. -/
theorem addEdgeNodes (g : DiGraph) (u v x : String)
    (hx : x ∈ (addEdge g u v).nodes) : x ∈ g.nodes ∨ x = u ∨ x = v := by
  have heq : (addEdge g u v).nodes = (addNode (addNode g u) v).nodes := by
    unfold addEdge
    dsimp only
    split <;> rfl
  rw [heq] at hx
  rcases addNodeNodes (addNode g u) v x hx with h | h
  · rcases addNodeNodes g u x h with h2 | h2
    · exact Or.inl h2
    · exact Or.inr (Or.inl h2)
  · exact Or.inr (Or.inr h)

/-- Worker for the node characterization of
`add_module_dependencies_to_graph`: the fold over the dependency list only
introduces the module and its dependencies as new nodes. -/
theorem depFoldNodes (module_name : String) :
    ∀ (deps : List String) (g0 g' : DiGraph),
      (deps.foldlM (fun gg dependency => do
          let gg2 := addEdge gg dependency module_name
          check_for_cycles gg2
          pure gg2) g0) = .ok g' →
      ∀ x ∈ g'.nodes, x ∈ g0.nodes ∨ x = module_name ∨ x ∈ deps := by
  intro deps
  induction deps with
  | nil =>
    intro g0 g' h x hx
    simp only [List.foldlM_nil] at h
    injection h with h2
    rw [← h2] at hx
    exact Or.inl hx
  | cons d ds ih =>
    intro g0 g' h x hx
    simp only [List.foldlM_cons] at h
    cases hck : check_for_cycles (addEdge g0 d module_name) with
    | error e =>
      rw [hck] at h
      simp only [exceptBindError] at h
      exact absurd h (by simp)
    | ok u =>
      rw [hck] at h
      simp only [exceptBindOk, exceptPureEq] at h
      rcases ih (addEdge g0 d module_name) g' h x hx with h1 | h1 | h1
      · rcases addEdgeNodes g0 d module_name x h1 with h2 | h2 | h2
        · exact Or.inl h2
        · exact Or.inr (Or.inr (by simp [h2]))
        · exact Or.inr (Or.inl h2)
      · exact Or.inr (Or.inl h1)
      · exact Or.inr (Or.inr (by simp [h1]))

/-- The nodes produced by `add_module_dependencies_to_graph` are the old
nodes, the module, and its dependencies. -/
theorem addDepsNodes (g g' : DiGraph) (deps : List String)
    (module_name : String)
    (h : add_module_dependencies_to_graph g deps module_name = .ok g') :
    ∀ x ∈ g'.nodes, x ∈ g.nodes ∨ x = module_name ∨ x ∈ deps := by
  intro x hx
  rcases depFoldNodes module_name deps (addNode g module_name) g' h x hx
    with h1 | h1 | h1
  · rcases addNodeNodes g module_name x h1 with h2 | h2
    · exact Or.inl h2
    · exact Or.inr (Or.inl h2)
  · exact Or.inr (Or.inl h1)
  · exact Or.inr (Or.inr h1)

/-- The expansion loop preserves the node-sourcing invariant. -/
theorem processAuxGraphSourced (all_modules : List ModuleSpec) :
    ∀ (fuel i : Nat) (st st' : PMState),
      processAux all_modules fuel i st = .ok st' →
      GraphSourced all_modules st.names st.graph →
      GraphSourced all_modules st'.names st'.graph := by
  intro fuel
  induction fuel with
  | zero =>
    intro i st st' h hinv
    simp only [processAux] at h
    split at h
    · exact absurd h (by simp)
    · injection h with h2
      rw [← h2]
      exact hinv
  | succ fuel ih =>
    intro i st st' h hinv
    simp only [processAux] at h
    split at h
    · injection h with h2
      rw [← h2]
      exact hinv
    case _ module_name hni =>
      have hilen := (List.getElem?_eq_some_iff.mp hni).1
      have hmem : module_name ∈ st.names := by
        have := (List.getElem?_eq_some_iff.mp hni).2
        exact this ▸ List.getElem_mem hilen
      split at h
      · exact absurd h (by simp)
      case _ spec hspec =>
        split at h
        · exact absurd h (by simp)
        case _ d ds hdeps =>
          split at h
          next hsent =>
            exact ih (i + 1) ⟨st.names, st.modules ++ [spec], st.graph⟩ st' h hinv
          next hsent =>
            split at h
            · exact absurd h (by simp)
            case _ g hg =>
              refine ih (i + 1)
                ⟨add_module_dependencies_to_desired_modules st.names (d :: ds),
                 st.modules ++ [spec], g⟩ st' h ?_
              intro x hx
              have hsentf : sentinelHead d = false := by
                revert hsent
                cases sentinelHead d <;> simp
              rcases addDepsNodes st.graph g (d :: ds) spec.name hg x hx
                with h1 | h1 | h1
              · obtain ⟨n, sp, dd, dds, hn, hlk, hdd, hsf, hor⟩ := hinv x h1
                exact ⟨n, sp, dd, dds, addNamesMono (d :: ds) st.names n hn,
                  hlk, hdd, hsf, hor⟩
              · refine ⟨module_name, spec, d, ds,
                  addNamesMono (d :: ds) st.names module_name hmem,
                  hspec, hdeps, hsentf, Or.inl ?_⟩
                rw [h1, specNameEq all_modules module_name spec hspec]
              · exact ⟨module_name, spec, d, ds,
                  addNamesMono (d :: ds) st.names module_name hmem,
                  hspec, hdeps, hsentf, Or.inr h1⟩

end HIAB

namespace HIAB

/-- C9: a selected module whose spec declares the no-dependency sentinel
(first dependency entry falsy or the string "None") and which no other
selected module declares as a dependency is never added to the dependency
graph, and therefore appears in no deployment order `topological_sort`
returns (so `deploy_homelab`, which executes exactly the deployment order,
never executes it).  By contrast, a module whose dependency list is
literally empty fails the expansion immediately: `process_modules` raises
`IndexError` at the `spec["dependencies"][0]` access instead of
contributing no edges. -/
theorem C9_sentinel_module_excluded (all_modules : List ModuleSpec)
    (names0 : List String) (fuel : Nat) (st : PMState) (m : String)
    (specm : ModuleSpec) (d0 : String) (ds0 : List String)
    (h : process_modules all_modules names0 fuel = .ok st)
    (hm : get_module_spec all_modules m = some specm)
    (hdm : specm.dependencies = d0 :: ds0)
    (hsent : sentinelHead d0 = true)
    (hnodep : ∀ n ∈ st.names, ∀ s dd dds,
      get_module_spec all_modules n = some s → s.dependencies = dd :: dds →
      sentinelHead dd = false → m ∉ dd :: dds) :
    (m ∉ st.graph.nodes ∧
      ∀ ord, topological_sort st.graph = some ord → m ∉ ord) ∧
    ∀ (catalog : List ModuleSpec) (name : String) (s2 : ModuleSpec)
      (rest : List String) (fuel2 : Nat),
      get_module_spec catalog name = some s2 → s2.dependencies = [] →
      process_modules catalog (name :: rest) (fuel2 + 1) =
        .error .indexError := by
  have hsrc : GraphSourced all_modules st.names st.graph :=
    processAuxGraphSourced all_modules fuel 0 ⟨names0, [], DiGraph.empty⟩ st h
      (by intro x hx; cases hx)
  have hnot : m ∉ st.graph.nodes := by
    intro hmem
    obtain ⟨n, sp, dd, dds, hn, hlk, hdd, hsf, hor⟩ := hsrc m hmem
    rcases hor with h1 | h1
    · subst h1
      rw [hm] at hlk
      injection hlk with h2
      subst h2
      rw [hdm] at hdd
      injection hdd with h3 h4
      rw [← h3] at hsf
      rw [hsent] at hsf
      exact absurd hsf (by simp)
    · exact hnodep n hn sp dd dds hlk hdd hsf h1
  refine ⟨⟨hnot, ?_⟩, ?_⟩
  · intro ord hord hmo
    exact hnot ((topoAuxPerm st.graph.edges st.graph.nodes.length
      st.graph.nodes ord hord).subset hmo)
  · intro catalog name s2 rest fuel2 hlk2 hdeps2
    simp [process_modules, processAux, hlk2, hdeps2]

/-- Witness for C9 on the concrete catalog `c9Specs`: Solo carries the
sentinel, nothing depends on it, and it is absent from the graph and from
every returned order; the module E with a literally empty dependency list
makes the expansion raise `IndexError`. -/
theorem C9_witness :
    ("Solo" ∉ c9State.graph.nodes ∧
      ∀ ord, topological_sort c9State.graph = some ord → "Solo" ∉ ord) ∧
    process_modules [c9EmptySpec] ["E"] 1 = .error .indexError := by
  have h := C9_sentinel_module_excluded c9Specs ["Solo", "A"] 10 c9State
    "Solo" (mkSpec "Solo" ["None"]) "None" [] rfl rfl rfl rfl ?nodep
  case nodep =>
    intro n hn s dd dds hlk hdeps hsf
    fin_cases hn
    · have hs : s = mkSpec "Solo" ["None"] := by
        rw [show get_module_spec c9Specs "Solo" =
          some (mkSpec "Solo" ["None"]) from rfl] at hlk
        injection hlk with h2
        exact h2.symm
      subst hs
      rw [show (mkSpec "Solo" ["None"]).dependencies = ["None"] from rfl]
        at hdeps
      injection hdeps with h3 h4
      rw [← h3] at hsf
      exact absurd hsf (by decide)
    · have hs : s = mkSpec "A" ["B"] := by
        rw [show get_module_spec c9Specs "A" =
          some (mkSpec "A" ["B"]) from rfl] at hlk
        injection hlk with h2
        exact h2.symm
      subst hs
      rw [show (mkSpec "A" ["B"]).dependencies = ["B"] from rfl] at hdeps
      injection hdeps with h3 h4
      rw [← h3, ← h4]
      decide
    · have hs : s = mkSpec "B" ["None"] := by
        rw [show get_module_spec c9Specs "B" =
          some (mkSpec "B" ["None"]) from rfl] at hlk
        injection hlk with h2
        exact h2.symm
      subst hs
      rw [show (mkSpec "B" ["None"]).dependencies = ["None"] from rfl]
        at hdeps
      injection hdeps with h3 h4
      rw [← h3] at hsf
      exact absurd hsf (by decide)
  exact ⟨h.1, h.2 [c9EmptySpec] "E" c9EmptySpec [] 0 rfl rfl⟩

end HIAB

namespace HIAB

/-- A passing cycle check means the graph is acyclic. -/
theorem checkOkAcyclic (g : DiGraph) (u : Unit)
    (h : check_for_cycles g = .ok u) : simpleCycles g = [] := by
  unfold check_for_cycles at h
  split at h
  · assumption
  · exact absurd h (by simp)

/-- A failing cycle check raises `ModuleConfigurationError` carrying
exactly the simple cycles of the graph at that moment, a nonempty list. -/
theorem checkErrCycles (g : DiGraph) (E : HiabError)
    (h : check_for_cycles g = .error E) :
    E = .moduleConfigurationError (simpleCycles g) ∧ simpleCycles g ≠ [] := by
  unfold check_for_cycles at h
  split at h
  · exact absurd h (by simp)
  next hne =>
    injection h with h2
    exact ⟨h2.symm, hne⟩

/-- Every chain listed by the cycle enumeration is nonempty and
duplicate-free. -/
theorem simpleCyclesSound (g : DiGraph) (c : List String)
    (hc : c ∈ simpleCycles g) : c ≠ [] ∧ c.Nodup := by
  have hcyc := (List.mem_filter.mp hc).2
  cases c with
  | nil => simp [isSimpleCycle] at hcyc
  | cons a rest =>
    simp only [isSimpleCycle, Bool.and_eq_true, decide_eq_true_eq] at hcyc
    exact ⟨by simp, hcyc.1⟩

/-- A completed dependency-edge fold leaves an acyclic graph: the cycle
check ran right after the last edge was inserted. -/
theorem depFoldAcyclic (module_name : String) :
    ∀ (deps : List String) (g0 g' : DiGraph), deps ≠ [] →
      (deps.foldlM (fun gg dependency => do
          let gg2 := addEdge gg dependency module_name
          check_for_cycles gg2
          pure gg2) g0) = .ok g' →
      simpleCycles g' = [] := by
  intro deps
  induction deps with
  | nil => intro g0 g' hne _; exact absurd rfl hne
  | cons d ds ih =>
    intro g0 g' _ h
    simp only [List.foldlM_cons] at h
    cases hck : check_for_cycles (addEdge g0 d module_name) with
    | error e =>
      rw [hck] at h
      simp only [exceptBindError] at h
      exact absurd h (by simp)
    | ok u =>
      rw [hck] at h
      simp only [exceptBindOk, exceptPureEq] at h
      cases ds with
      | nil =>
        simp only [List.foldlM_nil] at h
        injection h with h2
        rw [← h2]
        exact checkOkAcyclic (addEdge g0 d module_name) u hck
      | cons d2 ds2 =>
        exact ih (addEdge g0 d module_name) g' (by simp) h

/-- A completed expansion run preserves graph acyclicity. -/
theorem processAuxAcyclic (all_modules : List ModuleSpec) :
    ∀ (fuel i : Nat) (st st' : PMState),
      processAux all_modules fuel i st = .ok st' →
      simpleCycles st.graph = [] → simpleCycles st'.graph = [] := by
  intro fuel
  induction fuel with
  | zero =>
    intro i st st' h hac
    simp only [processAux] at h
    split at h
    · exact absurd h (by simp)
    · injection h with h2
      rw [← h2]
      exact hac
  | succ fuel ih =>
    intro i st st' h hac
    simp only [processAux] at h
    split at h
    · injection h with h2
      rw [← h2]
      exact hac
    case _ module_name hni =>
      split at h
      · exact absurd h (by simp)
      case _ spec hspec =>
        split at h
        · exact absurd h (by simp)
        case _ d ds hdeps =>
          split at h
          · exact ih (i + 1) ⟨st.names, st.modules ++ [spec], st.graph⟩ st' h hac
          · split at h
            · exact absurd h (by simp)
            case _ g hg =>
              exact ih (i + 1)
                ⟨add_module_dependencies_to_desired_modules st.names (d :: ds),
                 st.modules ++ [spec], g⟩ st' h
                (depFoldAcyclic spec.name (d :: ds)
                  (addNode st.graph spec.name) g (by simp) hg)

end HIAB

namespace HIAB

/-- Adding a node leaves the edge list unchanged. -/
theorem addNodeEdgesEq (g : DiGraph) (n : String) :
    (addNode g n).edges = g.edges := by
  unfold addNode
  split <;> rfl

/-- Adding an edge introduces at most that edge. -/
theorem addEdgeEdges (g : DiGraph) (u v : String) (e : String × String)
    (he : e ∈ (addEdge g u v).edges) : e ∈ g.edges ∨ e = (u, v) := by
  unfold addEdge at he
  dsimp only at he
  split at he
  · rw [addNodeEdgesEq, addNodeEdgesEq] at he
    exact Or.inl he
  · rw [addNodeEdgesEq, addNodeEdgesEq] at he
    rcases List.mem_append.mp he with h | h
    · exact Or.inl h
    · simp at h
      exact Or.inr h

/-- Every chain listed by the cycle enumeration is a simple cycle of the
graph. -/
theorem simpleCyclesChains (g : DiGraph) (c : List String)
    (hc : c ∈ simpleCycles g) : isSimpleCycle g c = true :=
  (List.mem_filter.mp hc).2

/-- A member of the grown names list was already listed or is one of the
appended dependencies. -/
theorem addNamesFrom :
    ∀ (deps names : List String) (x : String),
      x ∈ add_module_dependencies_to_desired_modules names deps →
      x ∈ names ∨ x ∈ deps := by
  intro deps
  induction deps with
  | nil =>
    intro names x hx
    simp only [add_module_dependencies_to_desired_modules, List.foldl_nil] at hx
    exact Or.inl hx
  | cons d ds ih =>
    intro names x hx
    by_cases hd : d ∈ names
    · rcases ih names x
        (by simpa [add_module_dependencies_to_desired_modules, hd] using hx)
        with h | h
      · exact Or.inl h
      · exact Or.inr (by simp [h])
    · rcases ih (names ++ [d]) x
        (by simpa [add_module_dependencies_to_desired_modules, hd] using hx)
        with h | h
      · rcases List.mem_append.mp h with h2 | h2
        · exact Or.inl h2
        · simp at h2
          exact Or.inr (by simp [h2])
      · exact Or.inr (by simp [h])

/-- The dependency-edge fold fails only with a `ModuleConfigurationError`. -/
theorem depFoldErrorShape (module_name : String) :
    ∀ (deps : List String) (g0 : DiGraph) (E : HiabError),
      (deps.foldlM (fun gg dependency => do
          let gg2 := addEdge gg dependency module_name
          check_for_cycles gg2
          pure gg2) g0) = .error E →
      ∃ cs, E = .moduleConfigurationError cs := by
  intro deps
  induction deps with
  | nil =>
    intro g0 E h
    simp only [List.foldlM_nil] at h
    rw [exceptPureEq] at h
    exact absurd h (by simp)
  | cons d ds ih =>
    intro g0 E h
    simp only [List.foldlM_cons] at h
    cases hck : check_for_cycles (addEdge g0 d module_name) with
    | error e =>
      rw [hck] at h
      simp only [exceptBindError] at h
      injection h with h2
      obtain ⟨hE, _⟩ := checkErrCycles (addEdge g0 d module_name) e hck
      exact ⟨simpleCycles (addEdge g0 d module_name), by rw [← h2, hE]⟩
    | ok u =>
      rw [hck] at h
      simp only [exceptBindOk, exceptPureEq] at h
      exact ih (addEdge g0 d module_name) E h

/-- Whether the dependency-edge fold for one module succeeds or raises, the
edge-sourcing invariant is maintained: on success the final graph's edges
are all declared dependency edges, and on failure the raised error is a
`ModuleConfigurationError` listing exactly the simple cycles of the graph
as built at the moment of detection, a graph whose edges are likewise all
declared dependency edges. -/
theorem depFoldEdgeCases (all_modules : List ModuleSpec)
    (module_name : String) (spec : ModuleSpec) (d0 : String)
    (ds0 : List String)
    (hlk : get_module_spec all_modules module_name = some spec)
    (hdeps : spec.dependencies = d0 :: ds0)
    (hsent : sentinelHead d0 = false) :
    ∀ (deps : List String) (g0 : DiGraph), (∀ x ∈ deps, x ∈ d0 :: ds0) →
      EdgeSourced all_modules g0 →
      (∀ g', (deps.foldlM (fun gg dependency => do
          let gg2 := addEdge gg dependency spec.name
          check_for_cycles gg2
          pure gg2) g0) = .ok g' → EdgeSourced all_modules g') ∧
      (∀ E, (deps.foldlM (fun gg dependency => do
          let gg2 := addEdge gg dependency spec.name
          check_for_cycles gg2
          pure gg2) g0) = .error E →
        ∃ gdet, E = .moduleConfigurationError (simpleCycles gdet) ∧
          simpleCycles gdet ≠ [] ∧ EdgeSourced all_modules gdet) := by
  intro deps
  induction deps with
  | nil =>
    intro g0 _ hES
    constructor
    · intro g' h
      simp only [List.foldlM_nil] at h
      rw [exceptPureEq] at h
      injection h with h2
      rw [← h2]
      exact hES
    · intro E h
      simp only [List.foldlM_nil] at h
      rw [exceptPureEq] at h
      exact absurd h (by simp)
  | cons d ds ih =>
    intro g0 hsub hES
    have hES1 : EdgeSourced all_modules (addEdge g0 d spec.name) := by
      intro e he
      rcases addEdgeEdges g0 d spec.name e he with h1 | h1
      · exact hES e h1
      · refine ⟨module_name, spec, d0, ds0, hlk, hdeps, hsent, ?_, ?_⟩
        · rw [h1]
          exact specNameEq all_modules module_name spec hlk
        · rw [h1]
          exact hsub d (by simp)
    have hsub2 : ∀ x ∈ ds, x ∈ d0 :: ds0 := fun x hx => hsub x (by simp [hx])
    constructor
    · intro g' h
      simp only [List.foldlM_cons] at h
      cases hck : check_for_cycles (addEdge g0 d spec.name) with
      | error e =>
        rw [hck] at h
        simp only [exceptBindError] at h
        exact absurd h (by simp)
      | ok u =>
        rw [hck] at h
        simp only [exceptBindOk, exceptPureEq] at h
        exact (ih (addEdge g0 d spec.name) hsub2 hES1).1 g' h
    · intro E h
      simp only [List.foldlM_cons] at h
      cases hck : check_for_cycles (addEdge g0 d spec.name) with
      | error e =>
        rw [hck] at h
        simp only [exceptBindError] at h
        injection h with h2
        obtain ⟨hE, hne⟩ := checkErrCycles (addEdge g0 d spec.name) e hck
        exact ⟨addEdge g0 d spec.name, by rw [← h2, hE], hne, hES1⟩
      | ok u =>
        rw [hck] at h
        simp only [exceptBindOk, exceptPureEq] at h
        exact (ih (addEdge g0 d spec.name) hsub2 hES1).2 E h

end HIAB

namespace HIAB

/-- The expansion loop maintains edge-sourcing on success, and every
`ModuleConfigurationError` it raises carries exactly the simple cycles of
the (edge-sourced) graph as built at the moment of detection. -/
theorem processAuxEdgeCases (all_modules : List ModuleSpec) :
    ∀ (fuel i : Nat) (st : PMState), EdgeSourced all_modules st.graph →
      (∀ st', processAux all_modules fuel i st = .ok st' →
        EdgeSourced all_modules st'.graph) ∧
      (∀ cs, processAux all_modules fuel i st =
          .error (.moduleConfigurationError cs) →
        ∃ gdet, cs = simpleCycles gdet ∧ simpleCycles gdet ≠ [] ∧
          EdgeSourced all_modules gdet) := by
  intro fuel
  induction fuel with
  | zero =>
    intro i st hES
    constructor
    · intro st' h
      simp only [processAux] at h
      split at h
      · exact absurd h (by simp)
      · injection h with h2
        rw [← h2]
        exact hES
    · intro cs h
      simp only [processAux] at h
      split at h
      · injection h with h2
        exact HiabError.noConfusion h2
      · exact absurd h (by simp)
  | succ fuel ih =>
    intro i st hES
    constructor
    · intro st' h
      simp only [processAux] at h
      split at h
      · injection h with h2
        rw [← h2]
        exact hES
      case _ module_name hni =>
        split at h
        · exact absurd h (by simp)
        case _ spec hspec =>
          split at h
          · exact absurd h (by simp)
          case _ d ds hdeps =>
            split at h
            next hsent =>
              exact (ih (i + 1)
                ⟨st.names, st.modules ++ [spec], st.graph⟩ hES).1 st' h
            next hsent =>
              split at h
              · exact absurd h (by simp)
              case _ g hg =>
                have hsf : sentinelHead d = false := by
                  revert hsent
                  cases sentinelHead d <;> simp
                have hES0 : EdgeSourced all_modules
                    (addNode st.graph spec.name) := by
                  intro e he
                  rw [addNodeEdgesEq] at he
                  exact hES e he
                have hg2 := (depFoldEdgeCases all_modules module_name spec d ds
                  hspec hdeps hsf (d :: ds) (addNode st.graph spec.name)
                  (fun x hx => hx) hES0).1 g hg
                exact (ih (i + 1)
                  ⟨add_module_dependencies_to_desired_modules st.names (d :: ds),
                   st.modules ++ [spec], g⟩ hg2).1 st' h
    · intro cs h
      simp only [processAux] at h
      split at h
      · exact absurd h (by simp)
      case _ module_name hni =>
        split at h
        · injection h with h2
          exact HiabError.noConfusion h2
        case _ spec hspec =>
          split at h
          · injection h with h2
            exact HiabError.noConfusion h2
          case _ d ds hdeps =>
            split at h
            next hsent =>
              exact (ih (i + 1)
                ⟨st.names, st.modules ++ [spec], st.graph⟩ hES).2 cs h
            next hsent =>
              have hsf : sentinelHead d = false := by
                revert hsent
                cases sentinelHead d <;> simp
              have hES0 : EdgeSourced all_modules
                  (addNode st.graph spec.name) := by
                intro e he
                rw [addNodeEdgesEq] at he
                exact hES e he
              split at h
              case _ e2 hg =>
                injection h with h2
                rw [h2] at hg
                obtain ⟨gdet, hE, hne, hESd⟩ :=
                  (depFoldEdgeCases all_modules module_name spec d ds
                    hspec hdeps hsf (d :: ds) (addNode st.graph spec.name)
                    (fun x hx => hx) hES0).2 _ hg
                injection hE with hE2
                exact ⟨gdet, hE2, hne, hESd⟩
              case _ g hg =>
                have hg2 := (depFoldEdgeCases all_modules module_name spec d ds
                  hspec hdeps hsf (d :: ds) (addNode st.graph spec.name)
                  (fun x hx => hx) hES0).1 g hg
                exact (ih (i + 1)
                  ⟨add_module_dependencies_to_desired_modules st.names (d :: ds),
                   st.modules ++ [spec], g⟩ hg2).2 cs h

/-- The expansion loop fails only with fuel exhaustion, an unresolvable
module name, an empty dependency list, or a `ModuleConfigurationError`;
in particular it never raises `NetworkXUnfeasible` or a `KeyError`. -/
theorem processAuxErrorShape (all_modules : List ModuleSpec) :
    ∀ (fuel i : Nat) (st : PMState) (e : HiabError),
      processAux all_modules fuel i st = .error e →
      e = .fuelOut ∨ e = .typeError ∨ e = .indexError ∨
        ∃ cs, e = .moduleConfigurationError cs := by
  intro fuel
  induction fuel with
  | zero =>
    intro i st e h
    simp only [processAux] at h
    split at h
    · injection h with h2
      exact Or.inl h2.symm
    · exact absurd h (by simp)
  | succ fuel ih =>
    intro i st e h
    simp only [processAux] at h
    split at h
    · exact absurd h (by simp)
    case _ module_name hni =>
      split at h
      · injection h with h2
        exact Or.inr (Or.inl h2.symm)
      case _ spec hspec =>
        split at h
        · injection h with h2
          exact Or.inr (Or.inr (Or.inl h2.symm))
        case _ d ds hdeps =>
          split at h
          · exact ih (i + 1)
              ⟨st.names, st.modules ++ [spec], st.graph⟩ e h
          · split at h
            case _ e2 hg =>
              injection h with h2
              obtain ⟨cs, hcs⟩ := depFoldErrorShape spec.name (d :: ds)
                (addNode st.graph spec.name) e2 hg
              exact Or.inr (Or.inr (Or.inr ⟨cs, by rw [← h2, hcs]⟩))
            case _ g hg =>
              exact ih (i + 1)
                ⟨add_module_dependencies_to_desired_modules st.names (d :: ds),
                 st.modules ++ [spec], g⟩ e h

/-- When the expansion loop raises `TypeError` or `IndexError`, the causes
are input defects unrelated to cycles: a name from the given pool (closed
under the catalog's dependency declarations) that resolves to no spec,
respectively one whose spec declares a literally empty dependency list. -/
theorem processAuxCause (all_modules : List ModuleSpec) (pool : List String)
    (hclosed : ∀ s, s ∈ all_modules → ∀ x ∈ s.dependencies, x ∈ pool) :
    ∀ (fuel i : Nat) (st : PMState), (∀ x ∈ st.names, x ∈ pool) →
      (processAux all_modules fuel i st = .error .typeError →
        ∃ n, n ∈ pool ∧ get_module_spec all_modules n = none) ∧
      (processAux all_modules fuel i st = .error .indexError →
        ∃ n s, n ∈ pool ∧ get_module_spec all_modules n = some s ∧
          s.dependencies = []) := by
  intro fuel
  induction fuel with
  | zero =>
    intro i st hns
    constructor
    · intro h
      simp only [processAux] at h
      split at h
      · injection h with h2
        exact HiabError.noConfusion h2
      · exact absurd h (by simp)
    · intro h
      simp only [processAux] at h
      split at h
      · injection h with h2
        exact HiabError.noConfusion h2
      · exact absurd h (by simp)
  | succ fuel ih =>
    intro i st hns
    have hnames : ∀ mn, st.names[i]? = some mn → mn ∈ pool := by
      intro mn hmn
      have hl := (List.getElem?_eq_some_iff.mp hmn).1
      have hv := (List.getElem?_eq_some_iff.mp hmn).2
      exact hns mn (hv ▸ List.getElem_mem hl)
    constructor
    · intro h
      simp only [processAux] at h
      split at h
      · exact absurd h (by simp)
      case _ module_name hni =>
        split at h
        next hnone => exact ⟨module_name, hnames module_name hni, hnone⟩
        case _ spec hspec =>
          split at h
          · injection h with h2
            exact HiabError.noConfusion h2
          case _ d ds hdeps =>
            split at h
            next hsent =>
              exact (ih (i + 1)
                ⟨st.names, st.modules ++ [spec], st.graph⟩ hns).1 h
            next hsent =>
              split at h
              case _ e2 hg =>
                injection h with h2
                obtain ⟨cs, hcs⟩ := depFoldErrorShape spec.name (d :: ds)
                  (addNode st.graph spec.name) e2 hg
                rw [hcs] at h2
                exact HiabError.noConfusion h2
              case _ g hg =>
                refine (ih (i + 1)
                  ⟨add_module_dependencies_to_desired_modules st.names (d :: ds),
                   st.modules ++ [spec], g⟩ ?_).1 h
                intro x hx
                rcases addNamesFrom (d :: ds) st.names x hx with h1 | h1
                · exact hns x h1
                · have hmem : spec ∈ all_modules :=
                    List.mem_of_find?_eq_some hspec
                  exact hclosed spec hmem x (by rw [hdeps]; exact h1)
    · intro h
      simp only [processAux] at h
      split at h
      · exact absurd h (by simp)
      case _ module_name hni =>
        split at h
        next hnone =>
          injection h with h2
          exact HiabError.noConfusion h2
        case _ spec hspec =>
          split at h
          next hempty =>
            exact ⟨module_name, spec, hnames module_name hni, hspec, hempty⟩
          case _ d ds hdeps =>
            split at h
            next hsent =>
              exact (ih (i + 1)
                ⟨st.names, st.modules ++ [spec], st.graph⟩ hns).2 h
            next hsent =>
              split at h
              case _ e2 hg =>
                injection h with h2
                obtain ⟨cs, hcs⟩ := depFoldErrorShape spec.name (d :: ds)
                  (addNode st.graph spec.name) e2 hg
                rw [hcs] at h2
                exact HiabError.noConfusion h2
              case _ g hg =>
                refine (ih (i + 1)
                  ⟨add_module_dependencies_to_desired_modules st.names (d :: ds),
                   st.modules ++ [spec], g⟩ ?_).2 h
                intro x hx
                rcases addNamesFrom (d :: ds) st.names x hx with h1 | h1
                · exact hns x h1
                · have hmem : spec ∈ all_modules :=
                    List.mem_of_find?_eq_some hspec
                  exact hclosed spec hmem x (by rw [hdeps]; exact h1)

end HIAB

namespace HIAB

/-- C1 (amended): planning fails on a cyclic input with
`ModuleConfigurationError` before any deployment order is computed, and the
error lists every simple cycle of the graph as built at the moment of
detection.  Precisely: (1) whenever `load_desired_modules` returns a plan,
its dependency graph has no simple cycle, so no cyclic graph ever survives
to the order computation; (2) whenever it raises
`ModuleConfigurationError`, the carried list is exactly `simpleCycles` of
the graph at the moment of detection - all simple cycles of that graph,
each an edge-following chain of module names - and that graph's edges are
all dependency edges the catalog declares; (3) the pipeline never raises
`NetworkXUnfeasible`: a cycle is always caught by `check_for_cycles`
during construction, never by the later topological sort; (4) on a
well-formed input - every selected name and every declared dependency
resolves to a spec with a nonempty dependency list - any run returning a
Python-observable result (not the embedding's fuel bound) either completes
with an acyclic plan or raises precisely `ModuleConfigurationError`.
Because `check_for_cycles` runs after every single edge insertion, the
detection-time graph may lack edges inserted later, so simple cycles of
the full input completed only by those edges are not listed (see the
counterexample). -/
theorem C1_cycle_detection_amended (all_modules : List ModuleSpec)
    (names0 : List String) (fuel : Nat) :
    (∀ st ord, load_desired_modules all_modules names0 fuel = .ok (st, ord) →
      simpleCycles st.graph = []) ∧
    (∀ cs, load_desired_modules all_modules names0 fuel =
        .error (.moduleConfigurationError cs) →
      ∃ gdet, cs = simpleCycles gdet ∧ cs ≠ [] ∧
        (∀ c ∈ cs, isSimpleCycle gdet c = true) ∧
        (∀ e ∈ gdet.edges, DeclaredEdge all_modules e)) ∧
    load_desired_modules all_modules names0 fuel ≠ .error .unfeasible ∧
    ((∀ n ∈ names0 ++ all_modules.flatMap ModuleSpec.dependencies,
        ∃ s, get_module_spec all_modules n = some s ∧ s.dependencies ≠ []) →
      load_desired_modules all_modules names0 fuel ≠ .error .fuelOut →
      (∃ st ord, load_desired_modules all_modules names0 fuel = .ok (st, ord) ∧
        simpleCycles st.graph = []) ∨
      (∃ cs, load_desired_modules all_modules names0 fuel =
        .error (.moduleConfigurationError cs))) := by
  have h1 : ∀ st ord,
      load_desired_modules all_modules names0 fuel = .ok (st, ord) →
      simpleCycles st.graph = [] := by
    intro st ord hok
    unfold load_desired_modules at hok
    cases hp : process_modules all_modules names0 fuel with
    | error e =>
      rw [hp, exceptBindError] at hok
      exact absurd hok (by simp)
    | ok st1 =>
      rw [hp, exceptBindOk] at hok
      cases ho : get_deployment_order st1.graph with
      | error e2 =>
        rw [ho, exceptBindError] at hok
        exact absurd hok (by simp)
      | ok o =>
        rw [ho, exceptBindOk, exceptPureEq] at hok
        injection hok with h2
        have hst : st1 = st := congrArg Prod.fst h2
        rw [← hst]
        exact processAuxAcyclic all_modules fuel 0
          ⟨names0, [], DiGraph.empty⟩ st1 hp rfl
  have h2 : ∀ cs, load_desired_modules all_modules names0 fuel =
      .error (.moduleConfigurationError cs) →
      ∃ gdet, cs = simpleCycles gdet ∧ cs ≠ [] ∧
        (∀ c ∈ cs, isSimpleCycle gdet c = true) ∧
        (∀ e ∈ gdet.edges, DeclaredEdge all_modules e) := by
    intro cs herr
    unfold load_desired_modules at herr
    cases hp : process_modules all_modules names0 fuel with
    | error e =>
      rw [hp, exceptBindError] at herr
      injection herr with hE
      rw [hE] at hp
      obtain ⟨gdet, hcs, hne, hES⟩ := (processAuxEdgeCases all_modules fuel 0
        ⟨names0, [], DiGraph.empty⟩ (by intro e2 he2; cases he2)).2 cs hp
      refine ⟨gdet, hcs, by rw [hcs]; exact hne, ?_, hES⟩
      intro c hc
      rw [hcs] at hc
      exact simpleCyclesChains gdet c hc
    | ok st1 =>
      rw [hp, exceptBindOk] at herr
      cases ho : get_deployment_order st1.graph with
      | error e2 =>
        rw [ho, exceptBindError] at herr
        injection herr with hE
        rw [hE] at ho
        unfold get_deployment_order at ho
        split at ho
        · exact absurd ho (by simp)
        · injection ho with h3
          exact HiabError.noConfusion h3
      | ok o =>
        rw [ho, exceptBindOk, exceptPureEq] at herr
        exact absurd herr (by simp)
  have h3 : load_desired_modules all_modules names0 fuel ≠
      .error .unfeasible := by
    intro hun
    unfold load_desired_modules at hun
    cases hp : process_modules all_modules names0 fuel with
    | error e =>
      rw [hp, exceptBindError] at hun
      injection hun with hE
      rw [hE] at hp
      rcases processAuxErrorShape all_modules fuel 0
        ⟨names0, [], DiGraph.empty⟩ .unfeasible hp
        with hcase | hcase | hcase | ⟨cs, hcase⟩
      all_goals exact HiabError.noConfusion hcase
    | ok st1 =>
      rw [hp, exceptBindOk] at hun
      have hacyc : simpleCycles st1.graph = [] :=
        processAuxAcyclic all_modules fuel 0
          ⟨names0, [], DiGraph.empty⟩ st1 hp rfl
      obtain ⟨l, hl⟩ := topoAuxTotal st1.graph hacyc
        st1.graph.nodes.length st1.graph.nodes (fun x hx => hx) (Nat.le_refl _)
      have hord : get_deployment_order st1.graph = .ok l := by
        unfold get_deployment_order
        rw [show topological_sort st1.graph = some l from hl]
      rw [hord, exceptBindOk, exceptPureEq] at hun
      exact absurd hun (by simp)
  refine ⟨h1, h2, h3, ?_⟩
  intro hwf hnf
  cases hres : load_desired_modules all_modules names0 fuel with
  | ok p =>
    left
    exact ⟨p.1, p.2, rfl, h1 p.1 p.2 hres⟩
  | error e =>
    right
    have hres2 := hres
    unfold load_desired_modules at hres2
    cases hp : process_modules all_modules names0 fuel with
    | error ep =>
      rw [hp, exceptBindError] at hres2
      injection hres2 with hE
      rcases processAuxErrorShape all_modules fuel 0
        ⟨names0, [], DiGraph.empty⟩ ep hp
        with hsh | hsh | hsh | ⟨cs, hsh⟩
      · exfalso
        apply hnf
        have he2 : e = HiabError.fuelOut := by rw [← hE]; exact hsh
        rw [hres, he2]
      · exfalso
        rw [hsh] at hp
        obtain ⟨n, hn, hnone⟩ := (processAuxCause all_modules
          (names0 ++ all_modules.flatMap ModuleSpec.dependencies)
          (fun s hs x hx =>
            List.mem_append_right _ (List.mem_flatMap.mpr ⟨s, hs, hx⟩))
          fuel 0 ⟨names0, [], DiGraph.empty⟩
          (fun x hx => List.mem_append_left _ hx)).1 hp
        obtain ⟨s, hsome, _⟩ := hwf n hn
        rw [hnone] at hsome
        exact absurd hsome (by simp)
      · exfalso
        rw [hsh] at hp
        obtain ⟨n, s, hn, hsome, hempty⟩ := (processAuxCause all_modules
          (names0 ++ all_modules.flatMap ModuleSpec.dependencies)
          (fun s hs x hx =>
            List.mem_append_right _ (List.mem_flatMap.mpr ⟨s, hs, hx⟩))
          fuel 0 ⟨names0, [], DiGraph.empty⟩
          (fun x hx => List.mem_append_left _ hx)).2 hp
        obtain ⟨s2, hsome2, hne2⟩ := hwf n hn
        rw [hsome] at hsome2
        injection hsome2 with hs2
        rw [← hs2] at hne2
        exact absurd hempty hne2
      · have he2 : e = HiabError.moduleConfigurationError cs := by
          rw [← hE]; exact hsh
        exact ⟨cs, by rw [he2]⟩
    | ok st1 =>
      rw [hp, exceptBindOk] at hres2
      cases ho : get_deployment_order st1.graph with
      | error eo =>
        rw [ho, exceptBindError] at hres2
        injection hres2 with hE
        exfalso
        apply h3
        unfold get_deployment_order at ho
        split at ho
        · exact absurd ho (by simp)
        · injection ho with h4
          have he2 : e = HiabError.unfeasible := by rw [← hE, ← h4]
          rw [hres, he2]
      | ok o =>
        rw [ho, exceptBindOk, exceptPureEq] at hres2
        exact absurd hres2 (by simp)

/-- Witness for the amended C1 theorem at the two-disjoint-cycle input:
the raised payload is exactly the simple cycles of an edge-sourced
detection-time graph, and the well-formed run is resolved by the
dichotomy. -/
theorem C1_witness :
    (∃ gdet, [["A", "B"], ["B", "A"]] = simpleCycles gdet ∧
      ([["A", "B"], ["B", "A"]] : List (List String)) ≠ [] ∧
      (∀ c ∈ ([["A", "B"], ["B", "A"]] : List (List String)),
        isSimpleCycle gdet c = true) ∧
      (∀ e ∈ gdet.edges, DeclaredEdge c1Specs e)) ∧
    ((∃ st ord, load_desired_modules c1Specs ["A", "B", "C", "D"] 10 =
        .ok (st, ord) ∧ simpleCycles st.graph = []) ∨
      (∃ cs, load_desired_modules c1Specs ["A", "B", "C", "D"] 10 =
        .error (.moduleConfigurationError cs))) := by
  have h := C1_cycle_detection_amended c1Specs ["A", "B", "C", "D"] 10
  constructor
  · exact h.2.1 [["A", "B"], ["B", "A"]] rfl
  · refine h.2.2.2 ?_ ?_
    · intro n hn
      have hn2 : n ∈ ["A", "B", "C", "D", "B", "A", "D", "C"] := hn
      fin_cases hn2
      · exact ⟨mkSpec "A" ["B"], rfl, by decide⟩
      · exact ⟨mkSpec "B" ["A"], rfl, by decide⟩
      · exact ⟨mkSpec "C" ["D"], rfl, by decide⟩
      · exact ⟨mkSpec "D" ["C"], rfl, by decide⟩
      · exact ⟨mkSpec "B" ["A"], rfl, by decide⟩
      · exact ⟨mkSpec "A" ["B"], rfl, by decide⟩
      · exact ⟨mkSpec "D" ["C"], rfl, by decide⟩
      · exact ⟨mkSpec "C" ["D"], rfl, by decide⟩
    · rw [show load_desired_modules c1Specs ["A", "B", "C", "D"] 10 =
        .error (.moduleConfigurationError [["A", "B"], ["B", "A"]]) from rfl]
      simp

end HIAB
